import Mathlib

/-!
Verification of the chladni-mobius spatial-transformation engine.

The definitions below are shallow embeddings of the JavaScript sources:
* `hilbertIndex`        — src/geometry/hilbert.js
* the cell cache / grid builder — src/geometry/gridCellFactory.js and
  src/geometry/gridGenerator.js
* the CPU deformation pipeline  — src/transforms/transformation.js (the current
  revision, whose enhanced branch references an undeclared identifier and is
  therefore modelled as `Option`), and the earlier revision of the same module
  (enhanced branch intact)
* the GPU deformation pipeline  — src/shaders/clothVertex.glsl
* the rotation modulator        — src/state.js `updateRotationDirection`

JavaScript doubles are modelled as real numbers; the gradient-noise
primitives (`createNoise2D`/`createNoise3D` from simplex-noise, which are
seeded from `Math.random`, and the GLSL `snoise`) are taken as arbitrary
function parameters, since every claim treated here is independent of the
concrete noise values.
-/

namespace ChladniMobius

/-! ## Hilbert indexer (src/geometry/hilbert.js)

The JS loop `for (let s = n >> 1; s > 0; s = s >> 1) { ... }` is embedded with
an explicit fuel argument that starts at `s` itself; since `s` strictly
decreases each iteration, fuel `s` is never exhausted, and the fuel-zero branch
agrees with the `s = 0` exit condition. -/

/-- Loop body of `hilbertIndex`: at each halving step compute the quadrant bits
`rx`, `ry`, accumulate `s*s*((3*rx) xor ry)`, and when `ry = 0` reflect through
`(n-1-x, n-1-y)` (if `rx = 1`) and swap `x` and `y`. -/
def hilbertGo (n : ℕ) : ℕ → ℕ → ℕ → ℕ → ℕ → ℕ
  | 0, _, _, _, index => index
  | fuel + 1, s, x, y, index =>
    if s = 0 then index
    else
      let rx : ℕ := if x &&& s ≠ 0 then 1 else 0
      let ry : ℕ := if y &&& s ≠ 0 then 1 else 0
      let index2 := index + s * s * ((3 * rx) ^^^ ry)
      if ry = 0 then
        if rx = 1 then hilbertGo n fuel (s / 2) (n - 1 - y) (n - 1 - x) index2
        else hilbertGo n fuel (s / 2) y x index2
      else hilbertGo n fuel (s / 2) x y index2

/-- `hilbertIndex(n, x, y)` from src/geometry/hilbert.js: Hilbert order index
of `(x, y)` on an `n × n` grid (`n` a power of two). -/
def hilbertIndex (n x y : ℕ) : ℕ := hilbertGo n (n / 2) (n / 2) x y 0

/-- Quadrant-local coordinates fed to the next recursion level (proof-side
characterisation of one loop iteration for `x, y < 2*s`). -/
def quadTransform (s x y : ℕ) : ℕ × ℕ :=
  if y / s = 0 then
    if x / s = 1 then (s - 1 - y % s, s - 1 - x % s) else (y, x)
  else (x % s, y % s)

/-! ## Cell cache and grid builder (gridCellFactory.js / gridGenerator.js)

JS object identity is modelled by an allocation counter: `new GridCell(x, y)`
yields a cell stamped with a fresh `ref`, so two cells are the same JS object
iff they are equal as `GridCell` values.  The factory's string key
`` `${x},${y}` `` is injective on integer pairs and is modelled as the pair
itself. -/

structure GridCell where
  ref : ℕ
  baseX : ℤ
  baseY : ℤ
deriving DecidableEq, Repr

structure CellCache where
  entries : List ((ℤ × ℤ) × GridCell)
  nextRef : ℕ
deriving DecidableEq, Repr

/-- The fresh module-level `const cellCache = new Map()`. -/
def emptyCache : CellCache := ⟨[], 0⟩

/-- `getGridCell(x, y)` from gridCellFactory.js: return the cached flyweight
cell for the key, creating (and caching) it on first request. -/
def getGridCell (k : ℤ × ℤ) (σ : CellCache) : GridCell × CellCache :=
  match σ.entries.lookup k with
  | some c => (c, σ)
  | none =>
    let c : GridCell := ⟨σ.nextRef, k.1, k.2⟩
    (c, ⟨(k, c) :: σ.entries, σ.nextRef + 1⟩)

/-- Row-major key enumeration of `generateGrid`: `y` outer over `[0, rows)`,
`x` inner over `[0, cols)`. -/
def coordList (rows cols : ℕ) : List (ℤ × ℤ) :=
  (List.range rows).flatMap fun (y : ℕ) => (List.range cols).map fun (x : ℕ) => ((x : ℤ), (y : ℤ))

/-- One `grid.push(getGridCell(x, y))` step, threading the cache. -/
def enumStep (acc : List GridCell × CellCache) (k : ℤ × ℤ) : List GridCell × CellCache :=
  let r := getGridCell k acc.2
  (acc.1 ++ [r.1], r.2)

/-- The two nested `for` loops of `generateGrid`. -/
def enumCells (σ : CellCache) (rows cols : ℕ) : List GridCell × CellCache :=
  (coordList rows cols).foldl enumStep ([], σ)

/-- Comparator used by `grid.sort((a, b) => hilbertIndex(rows, a.baseX, a.baseY)
- hilbertIndex(rows, b.baseX, b.baseY))`; the cells being sorted always carry
nonnegative coordinates. -/
def cellLE (n : ℕ) (a b : GridCell) : Prop :=
  hilbertIndex n a.baseX.toNat a.baseY.toNat ≤ hilbertIndex n b.baseX.toNat b.baseY.toNat

instance (n : ℕ) : DecidableRel (cellLE n) := fun a b => by
  unfold cellLE; infer_instance

instance (n : ℕ) : IsTotal GridCell (cellLE n) := ⟨fun _ _ => le_total _ _⟩

instance (n : ℕ) : IsTrans GridCell (cellLE n) := ⟨fun _ _ _ => le_trans⟩

/-- The observable coordinates of a cell. -/
def cellCoords (c : GridCell) : ℤ × ℤ := (c.baseX, c.baseY)

/-- The Hilbert rank the sort comparator computes for a cell. -/
def cellRank (n : ℕ) (c : GridCell) : ℕ := hilbertIndex n c.baseX.toNat c.baseY.toNat

/-- The Hilbert rank of a coordinate pair. -/
def coordRank (n : ℕ) (k : ℤ × ℤ) : ℕ := hilbertIndex n k.1.toNat k.2.toNat

/-- `generateGrid()` from gridGenerator.js, with the grid dimensions passed
explicitly (the source reads them from the global state store) and the cache
threaded explicitly (the source keeps it at module level).  ES2019
`Array.prototype.sort` is a stable sort, so its result on a consistent
comparator is the unique stable ascending order, here realised by
`List.insertionSort`. -/
def generateGridS (rows cols : ℕ) (σ : CellCache) : List GridCell × CellCache :=
  let r := enumCells σ rows cols
  if rows = cols ∧ rows &&& (rows - 1) = 0 then
    (List.insertionSort (cellLE rows) r.1, r.2)
  else r

/-- Cache well-formedness: every entry's cell carries its key's coordinates and
a `ref` below the allocation counter, and entries have pairwise distinct keys
and pairwise distinct `ref`s.  Holds for `emptyCache` and is preserved by
`getGridCell`. -/
def WFCache (σ : CellCache) : Prop :=
  (∀ e ∈ σ.entries, (e.2.baseX, e.2.baseY) = e.1 ∧ e.2.ref < σ.nextRef) ∧
  σ.entries.Pairwise (fun e1 e2 => e1.1 ≠ e2.1 ∧ e1.2.ref ≠ e2.2.ref)

/-! ## Matrix/vector machinery (THREE.Matrix4 / Vector3, as used by the CPU
pipeline).  `Matrix4.set` takes entries row-major; `a.multiply(b)` computes the
matrix product `a * b`; `Vector3.applyMatrix4` performs the perspective divide
(`w = 1` throughout this pipeline, whose matrices are all affine). -/

noncomputable section

structure Vec3 where
  x : ℝ
  y : ℝ
  z : ℝ

structure Mat4 where
  m00 : ℝ
  m01 : ℝ
  m02 : ℝ
  m03 : ℝ
  m10 : ℝ
  m11 : ℝ
  m12 : ℝ
  m13 : ℝ
  m20 : ℝ
  m21 : ℝ
  m22 : ℝ
  m23 : ℝ
  m30 : ℝ
  m31 : ℝ
  m32 : ℝ
  m33 : ℝ

/-- `new THREE.Matrix4()` (identity). -/
def idMat4 : Mat4 :=
  ⟨1, 0, 0, 0,
   0, 1, 0, 0,
   0, 0, 1, 0,
   0, 0, 0, 1⟩

/-- `Matrix4.makeTranslation(x, y, z)`. -/
def mkTranslation (a b c : ℝ) : Mat4 :=
  ⟨1, 0, 0, a,
   0, 1, 0, b,
   0, 0, 1, c,
   0, 0, 0, 1⟩

/-- `Matrix4.makeRotationX(θ)`. -/
def mkRotationX (θ : ℝ) : Mat4 :=
  ⟨1, 0, 0, 0,
   0, Real.cos θ, -Real.sin θ, 0,
   0, Real.sin θ, Real.cos θ, 0,
   0, 0, 0, 1⟩

/-- `Matrix4.makeRotationY(θ)`. -/
def mkRotationY (θ : ℝ) : Mat4 :=
  ⟨Real.cos θ, 0, Real.sin θ, 0,
   0, 1, 0, 0,
   -Real.sin θ, 0, Real.cos θ, 0,
   0, 0, 0, 1⟩

/-- `Matrix4.makeRotationZ(θ)`. -/
def mkRotationZ (θ : ℝ) : Mat4 :=
  ⟨Real.cos θ, -Real.sin θ, 0, 0,
   Real.sin θ, Real.cos θ, 0, 0,
   0, 0, 1, 0,
   0, 0, 0, 1⟩

/-- `a.multiply(b)` / `multiplyMatrices(a, b)`: the product `a * b`. -/
def Mat4.mul (a b : Mat4) : Mat4 :=
  ⟨a.m00*b.m00 + a.m01*b.m10 + a.m02*b.m20 + a.m03*b.m30,
   a.m00*b.m01 + a.m01*b.m11 + a.m02*b.m21 + a.m03*b.m31,
   a.m00*b.m02 + a.m01*b.m12 + a.m02*b.m22 + a.m03*b.m32,
   a.m00*b.m03 + a.m01*b.m13 + a.m02*b.m23 + a.m03*b.m33,
   a.m10*b.m00 + a.m11*b.m10 + a.m12*b.m20 + a.m13*b.m30,
   a.m10*b.m01 + a.m11*b.m11 + a.m12*b.m21 + a.m13*b.m31,
   a.m10*b.m02 + a.m11*b.m12 + a.m12*b.m22 + a.m13*b.m32,
   a.m10*b.m03 + a.m11*b.m13 + a.m12*b.m23 + a.m13*b.m33,
   a.m20*b.m00 + a.m21*b.m10 + a.m22*b.m20 + a.m23*b.m30,
   a.m20*b.m01 + a.m21*b.m11 + a.m22*b.m21 + a.m23*b.m31,
   a.m20*b.m02 + a.m21*b.m12 + a.m22*b.m22 + a.m23*b.m32,
   a.m20*b.m03 + a.m21*b.m13 + a.m22*b.m23 + a.m23*b.m33,
   a.m30*b.m00 + a.m31*b.m10 + a.m32*b.m20 + a.m33*b.m30,
   a.m30*b.m01 + a.m31*b.m11 + a.m32*b.m21 + a.m33*b.m31,
   a.m30*b.m02 + a.m31*b.m12 + a.m32*b.m22 + a.m33*b.m32,
   a.m30*b.m03 + a.m31*b.m13 + a.m32*b.m23 + a.m33*b.m33⟩

/-- `Vector3.applyMatrix4(m)`. -/
def applyMatrix4 (m : Mat4) (v : Vec3) : Vec3 :=
  let w := 1 / (m.m30*v.x + m.m31*v.y + m.m32*v.z + m.m33)
  ⟨(m.m00*v.x + m.m01*v.y + m.m02*v.z + m.m03) * w,
   (m.m10*v.x + m.m11*v.y + m.m12*v.z + m.m13) * w,
   (m.m20*v.x + m.m21*v.y + m.m22*v.z + m.m23) * w⟩

/-- `Vector3.setFromMatrixPosition(m)`: the translation column. -/
def setFromMatrixPosition (m : Mat4) : Vec3 := ⟨m.m03, m.m13, m.m23⟩

/-! ## CPU deformation pipeline (src/transforms/transformation.js).

`noise2` and `noise3` stand for the module-level `noise2D` and `noise3D`
generators from simplex-noise (deterministic across the session, but seeded
from `Math.random`, hence arbitrary). -/

/-- The classical-Möbius parameter record (`params` of `applyClassicalMobius`). -/
structure MobiusParams where
  a_real : ℝ
  a_imag : ℝ
  b_real : ℝ
  b_imag : ℝ
  c_real : ℝ
  c_imag : ℝ
  d_real : ℝ
  d_imag : ℝ
  animationSpeed : ℝ

/-- Coefficient `a` rotated by the phase `time * animationSpeed`
(the complex multiplication by `e^{iθ}` in `applyClassicalMobius`). -/
def mobiusRotatedA (time : ℝ) (p : MobiusParams) : ℝ × ℝ :=
  let timePhase := time * p.animationSpeed
  (p.a_real * Real.cos timePhase - p.a_imag * Real.sin timePhase,
   p.a_real * Real.sin timePhase + p.a_imag * Real.cos timePhase)

/-- The numerator `a·z + b` computed by `applyClassicalMobius`. -/
def mobiusNumerator (x y time : ℝ) (p : MobiusParams) : ℝ × ℝ :=
  let a := mobiusRotatedA time p
  (a.1 * x - a.2 * y + p.b_real,
   a.1 * y + a.2 * x + p.b_imag)

/-- The denominator `c·z + d` computed by `applyClassicalMobius`. -/
def mobiusDenominator (x y : ℝ) (p : MobiusParams) : ℝ × ℝ :=
  (p.c_real * x - p.c_imag * y + p.d_real,
   p.c_real * y + p.c_imag * x + p.d_imag)

/-- `applyClassicalMobius(x, y, time, params)` from transformation.js,
including the near-singular-denominator guard. -/
def applyClassicalMobius (x y time : ℝ) (p : MobiusParams) : Vec3 :=
  let numerator := mobiusNumerator x y time p
  let denominator := mobiusDenominator x y p
  let denomMagnitudeSq := denominator.1 * denominator.1 + denominator.2 * denominator.2
  if denomMagnitudeSq < 0.0001 then
    let numeratorMagnitude := Real.sqrt (numerator.1 * numerator.1 + numerator.2 * numerator.2)
    if numeratorMagnitude < 0.0001 then ⟨0, 0, 0⟩
    else
      let scale := 1000 / numeratorMagnitude
      ⟨numerator.1 * scale, numerator.2 * scale, 0⟩
  else
    ⟨(numerator.1 * denominator.1 + numerator.2 * denominator.2) / denomMagnitudeSq,
     (numerator.2 * denominator.1 - numerator.1 * denominator.2) / denomMagnitudeSq, 0⟩

/-- `createClassicalMobiusMatrix(x, y, time, params)`. -/
def createClassicalMobiusMatrix (x y time : ℝ) (p : MobiusParams) : Mat4 :=
  let transformedPos := applyClassicalMobius x y time p
  mkTranslation (transformedPos.x - x) (transformedPos.y - y) transformedPos.z

/-- `createChladniMatrix(x, y, time, amplitude, freqX, freqY, noiseScale)`. -/
def createChladniMatrix (noise3 : ℝ → ℝ → ℝ → ℝ)
    (x y time amplitude freqX freqY noiseScale : ℝ) : Mat4 :=
  let baseZ := Real.sin (freqX * x + time) * Real.sin (freqY * y + time)
  let noise := noise3 (x * 0.1) (y * 0.1) (time * 0.05)
  let z := amplitude * (baseZ + noise * noiseScale)
  mkTranslation 0 0 z

/-- The `displacementX` local of `createNoiseDisplacementMatrix`. -/
def noiseDX (noise3 : ℝ → ℝ → ℝ → ℝ) (x y time scale : ℝ) : ℝ :=
  noise3 (x * 0.2) (y * 0.2) (time * 0.1) * scale

/-- The `displacementY` local of `createNoiseDisplacementMatrix`. -/
def noiseDY (noise3 : ℝ → ℝ → ℝ → ℝ) (x y time scale : ℝ) : ℝ :=
  noise3 (x * 0.2) (y * 0.2) (time * 0.15 + 100) * scale

/-- The `displacementZ` local of `createNoiseDisplacementMatrix`. -/
def noiseDZ (noise3 : ℝ → ℝ → ℝ → ℝ) (x y time scale : ℝ) : ℝ :=
  noise3 (x * 0.2) (y * 0.2) (time * 0.05 + 200) * scale * 0.5

/-- `createNoiseDisplacementMatrix(x, y, time, scale)`. -/
def createNoiseDisplacementMatrix (noise3 : ℝ → ℝ → ℝ → ℝ)
    (x y time scale : ℝ) : Mat4 :=
  mkTranslation (noiseDX noise3 x y time scale) (noiseDY noise3 x y time scale)
    (noiseDZ noise3 x y time scale)

/-- The primary twist angle of the enhanced Möbius mode (`computeTwistAngle`
in transformation.js, and the `twistAngle` local of both revisions of
`createEnhancedMobiusMatrix` and of the GLSL `applyEnhancedMobius`):
`factor·r·(1 + 0.5·sin(0.5·z)) + 0.1·time·(1 + noiseScale·n(0.2x, 0.2y))`. -/
def computeTwistAngle (noise2 : ℝ → ℝ → ℝ) (x y z time factor noiseScale : ℝ) : ℝ :=
  let distanceFromOrigin := Real.sqrt (x * x + y * y)
  let noiseFactor := noise2 (x * 0.2) (y * 0.2) * noiseScale
  factor * distanceFromOrigin * (1 + 0.5 * Real.sin (z * 0.5)) + time * 0.1 * (1 + noiseFactor)

/-- `createEnhancedMobiusMatrix` of the CURRENT transformation.js revision.
After computing `twistAngle`, line 168 executes
`new THREE.Matrix4().makeRotationZ(adjustedTwistAngle)` where
`adjustedTwistAngle` is an undeclared identifier (its initialiser,
`const adjustedTwistAngle = 0`, is commented out), so the function throws a
`ReferenceError` before building any matrix: modelled as `none`. -/
def createEnhancedMobiusMatrixJs (noise2 : ℝ → ℝ → ℝ)
    (x y z time factor noiseScale : ℝ) : Option Mat4 :=
  let twistAngle := computeTwistAngle noise2 x y z time factor noiseScale
  let _unusedTwistAngle := twistAngle
  none

/-- `createEnhancedMobiusMatrix` of the earlier revision of transformation.js
(src/unnamed/part_002), in which the Z rotation is built from the computed
`twistAngle`; the matrices are combined as `((I·Rx)·Ry)·Rz`. -/
def createEnhancedMobiusMatrixP2 (noise2 : ℝ → ℝ → ℝ)
    (x y z time factor noiseScale : ℝ) : Mat4 :=
  let twistAngle := computeTwistAngle noise2 x y z time factor noiseScale
  let rotationZ := mkRotationZ twistAngle
  let distanceFromOrigin := Real.sqrt (x * x + y * y)
  let secondaryAngle :=
    factor * 0.5 * (Real.sin distanceFromOrigin +
      noise2 (x * 0.1 + time * 0.05) (y * 0.1) * noiseScale * 0.5)
  let rotationY := mkRotationY secondaryAngle
  let rotationX := mkRotationX (factor * 0.3 * noise2 (x * 0.15) (time * 0.05) * noiseScale)
  ((idMat4.mul rotationX).mul rotationY).mul rotationZ

/-- The parameter record consumed by `createCombinedMatrix`. -/
structure TransformParams where
  chladniAmplitude : ℝ
  chladniFrequencyX : ℝ
  chladniFrequencyY : ℝ
  mobiusFactor : ℝ
  noiseScale : ℝ
  useClassicalMobius : Bool
  a_real : ℝ
  a_imag : ℝ
  b_real : ℝ
  b_imag : ℝ
  c_real : ℝ
  c_imag : ℝ
  d_real : ℝ
  d_imag : ℝ
  mobiusAnimationSpeed : ℝ

/-- The classical-Möbius sub-record passed down by `createMobiusMatrix`. -/
def TransformParams.mobius (p : TransformParams) : MobiusParams :=
  ⟨p.a_real, p.a_imag, p.b_real, p.b_imag, p.c_real, p.c_imag, p.d_real, p.d_imag,
   p.mobiusAnimationSpeed⟩

/-- `createMobiusMatrix(x, y, z, time, params)`: dispatch between the classical
and the (crashing) enhanced implementation. -/
def createMobiusMatrix (noise2 : ℝ → ℝ → ℝ) (x y z time : ℝ)
    (p : TransformParams) : Option Mat4 :=
  if p.useClassicalMobius then
    some (createClassicalMobiusMatrix x y time p.mobius)
  else
    createEnhancedMobiusMatrixJs noise2 x y z time p.mobiusFactor p.noiseScale

/-- `createCombinedMatrix(baseX, baseY, time, params)` from transformation.js:
position, noise displacement, Möbius, Chladni, combined as
`(((I·chladni)·mobius)·noise)·position`. -/
def createCombinedMatrixJs (noise2 : ℝ → ℝ → ℝ) (noise3 : ℝ → ℝ → ℝ → ℝ)
    (baseX baseY time : ℝ) (p : TransformParams) : Option Mat4 :=
  let positionMatrix := mkTranslation baseX baseY 0
  let noiseMatrix := createNoiseDisplacementMatrix noise3 baseX baseY time (p.noiseScale * 0.5)
  let tempMatrix := noiseMatrix.mul positionMatrix
  let tempVector := setFromMatrixPosition tempMatrix
  match createMobiusMatrix noise2 tempVector.x tempVector.y tempVector.z time p with
  | none => none
  | some mobiusMatrix =>
    let chladniMatrix := createChladniMatrix noise3 baseX baseY time
      p.chladniAmplitude p.chladniFrequencyX p.chladniFrequencyY p.noiseScale
    some ((((idMat4.mul chladniMatrix).mul mobiusMatrix).mul noiseMatrix).mul positionMatrix)

/-- `transformPosition(x, y)` from transformation.js (with the state-store
reads made explicit): apply the combined matrix to the zero vector. -/
def transformPositionJs (noise2 : ℝ → ℝ → ℝ) (noise3 : ℝ → ℝ → ℝ → ℝ)
    (x y time : ℝ) (p : TransformParams) : Option Vec3 :=
  (createCombinedMatrixJs noise2 noise3 x y time p).map fun m =>
    applyMatrix4 m ⟨0, 0, 0⟩

/-! ## GPU per-vertex pipeline (src/shaders/clothVertex.glsl).

`sn` stands for the shader's `snoise(vec3)`; the `vec2` overload is defined in
the shader itself as `snoise(vec3(v.x, v.y, 0.0))`.  GLSL `mat3` constructors
take entries column-major, and `m * v` is the usual matrix-vector product. -/

structure ShaderUniforms where
  uChladniAmplitude : ℝ
  uChladniFrequencyX : ℝ
  uChladniFrequencyY : ℝ
  uUseClassicalMobius : Bool
  uMobiusFactor : ℝ
  uNoiseScale : ℝ
  uAnimationSpeed : ℝ
  uA : ℝ × ℝ
  uB : ℝ × ℝ
  uC : ℝ × ℝ
  uD : ℝ × ℝ

/-- The shader's `snoise(vec2)` overload. -/
def snoise2 (sn : ℝ → ℝ → ℝ → ℝ) (x y : ℝ) : ℝ := sn x y 0

structure Mat3 where
  a00 : ℝ
  a01 : ℝ
  a02 : ℝ
  a10 : ℝ
  a11 : ℝ
  a12 : ℝ
  a20 : ℝ
  a21 : ℝ
  a22 : ℝ

/-- A GLSL `mat3(c0x, c0y, c0z, c1x, c1y, c1z, c2x, c2y, c2z)` literal
(column-major order, as in the GLSL specification). -/
def mat3CM (c0x c0y c0z c1x c1y c1z c2x c2y c2z : ℝ) : Mat3 :=
  ⟨c0x, c1x, c2x,
   c0y, c1y, c2y,
   c0z, c1z, c2z⟩

/-- GLSL `m1 * m2` on `mat3`. -/
def Mat3.mul (a b : Mat3) : Mat3 :=
  ⟨a.a00*b.a00 + a.a01*b.a10 + a.a02*b.a20,
   a.a00*b.a01 + a.a01*b.a11 + a.a02*b.a21,
   a.a00*b.a02 + a.a01*b.a12 + a.a02*b.a22,
   a.a10*b.a00 + a.a11*b.a10 + a.a12*b.a20,
   a.a10*b.a01 + a.a11*b.a11 + a.a12*b.a21,
   a.a10*b.a02 + a.a11*b.a12 + a.a12*b.a22,
   a.a20*b.a00 + a.a21*b.a10 + a.a22*b.a20,
   a.a20*b.a01 + a.a21*b.a11 + a.a22*b.a21,
   a.a20*b.a02 + a.a21*b.a12 + a.a22*b.a22⟩

/-- GLSL `m * v` on `mat3` and `vec3`. -/
def Mat3.mulVec (m : Mat3) (v : Vec3) : Vec3 :=
  ⟨m.a00*v.x + m.a01*v.y + m.a02*v.z,
   m.a10*v.x + m.a11*v.y + m.a12*v.z,
   m.a20*v.x + m.a21*v.y + m.a22*v.z⟩

/-- `complex_mul(a, b)` from clothVertex.glsl. -/
def complex_mul (a b : ℝ × ℝ) : ℝ × ℝ :=
  (a.1 * b.1 - a.2 * b.2, a.1 * b.2 + a.2 * b.1)

/-- `complex_div(a, b)` from clothVertex.glsl, with the near-zero-denominator
guard (origin fallback / fixed magnitude 1000 along the numerator). -/
def complex_div (a b : ℝ × ℝ) : ℝ × ℝ :=
  let denominator := b.1 * b.1 + b.2 * b.2
  if denominator < 0.0001 then
    let magnitude := Real.sqrt (a.1 * a.1 + a.2 * a.2)
    if magnitude < 0.0001 then (0, 0)
    else
      let scale := 1000 / magnitude
      (a.1 * scale, a.2 * scale)
  else
    ((a.1 * b.1 + a.2 * b.2) / denominator,
     (a.2 * b.1 - a.1 * b.2) / denominator)

/-- `applyChladniTransform(pos, time)` from clothVertex.glsl.  Its frequency
and noise arguments are the `pos` it receives. -/
def applyChladniTransformG (sn : ℝ → ℝ → ℝ → ℝ) (u : ShaderUniforms)
    (pos : ℝ × ℝ) (time : ℝ) : Vec3 :=
  let baseZ := Real.sin (u.uChladniFrequencyX * pos.1 + time) *
    Real.sin (u.uChladniFrequencyY * pos.2 + time)
  let noise := sn (pos.1 * 0.1) (pos.2 * 0.1) (time * 0.05)
  let z := u.uChladniAmplitude * (baseZ + noise * u.uNoiseScale)
  ⟨pos.1, pos.2, z⟩

/-- `applyClassicalMobius(pos, time)` from clothVertex.glsl. -/
def applyClassicalMobiusG (u : ShaderUniforms) (pos : ℝ × ℝ) (time : ℝ) : ℝ × ℝ :=
  let timePhase := time * u.uAnimationSpeed
  let a := (u.uA.1 * Real.cos timePhase - u.uA.2 * Real.sin timePhase,
            u.uA.1 * Real.sin timePhase + u.uA.2 * Real.cos timePhase)
  let z := (pos.1, pos.2)
  let numerator := complex_mul a z + u.uB
  let denominator := complex_mul u.uC z + u.uD
  complex_div numerator denominator

/-- `applyEnhancedMobius(pos, time)` from clothVertex.glsl: Z, Y, X rotations
from the twist angles, applied as `rotX * rotY * rotZ * pos`. -/
def applyEnhancedMobiusG (sn : ℝ → ℝ → ℝ → ℝ) (u : ShaderUniforms)
    (pos : Vec3) (time : ℝ) : Vec3 :=
  let distanceFromOrigin := Real.sqrt (pos.x * pos.x + pos.y * pos.y)
  let noiseFactor := snoise2 sn (pos.x * 0.2) (pos.y * 0.2) * u.uNoiseScale
  let twistAngle := u.uMobiusFactor * distanceFromOrigin * (1 + 0.5 * Real.sin (pos.z * 0.5)) +
    time * 0.1 * (1 + noiseFactor)
  let rotZ := mat3CM (Real.cos twistAngle) (-Real.sin twistAngle) 0
    (Real.sin twistAngle) (Real.cos twistAngle) 0
    0 0 1
  let secondaryAngle := u.uMobiusFactor * 0.5 * (Real.sin distanceFromOrigin +
    snoise2 sn (pos.x * 0.1 + time * 0.05) (pos.y * 0.1) * u.uNoiseScale * 0.5)
  let rotY := mat3CM (Real.cos secondaryAngle) 0 (-Real.sin secondaryAngle)
    0 1 0
    (Real.sin secondaryAngle) 0 (Real.cos secondaryAngle)
  let xAngle := u.uMobiusFactor * 0.3 * snoise2 sn (pos.x * 0.15) (time * 0.05) * u.uNoiseScale
  let rotX := mat3CM 1 0 0
    0 (Real.cos xAngle) (-Real.sin xAngle)
    0 (Real.sin xAngle) (Real.cos xAngle)
  ((rotX.mul rotY).mul rotZ).mulVec pos

/-- `applyNoiseDisplacement(pos, time)` from clothVertex.glsl. -/
def applyNoiseDisplacementG (sn : ℝ → ℝ → ℝ → ℝ) (u : ShaderUniforms)
    (pos : Vec3) (time : ℝ) : Vec3 :=
  let displacementX := sn (pos.x * 0.2) (pos.y * 0.2) (time * 0.1) * u.uNoiseScale
  let displacementY := sn (pos.x * 0.2) (pos.y * 0.2) (time * 0.15 + 100) * u.uNoiseScale
  let displacementZ := sn (pos.x * 0.2) (pos.y * 0.2) (time * 0.05 + 200) * u.uNoiseScale * 0.5
  ⟨pos.x + displacementX, pos.y + displacementY, pos.z + displacementZ⟩

/-- The stage-1 + stage-2 part of the shader's `main` (noise displacement then
Möbius), i.e. `pos` just before the Chladni stage. -/
def gpuStage2 (sn : ℝ → ℝ → ℝ → ℝ) (u : ShaderUniforms)
    (position : Vec3) (time : ℝ) : Vec3 :=
  let pos1 := applyNoiseDisplacementG sn u position time
  if u.uUseClassicalMobius then
    let mobiusResult := applyClassicalMobiusG u (pos1.x, pos1.y) time
    ⟨mobiusResult.1, mobiusResult.2, pos1.z⟩
  else
    applyEnhancedMobiusG sn u pos1 time

/-- `main()` of clothVertex.glsl up to the model-view/projection (the deformed
vertex position): noise displacement, Möbius, then
`pos.z += applyChladniTransform(pos.xy, time).z` — the Chladni stage receives
the ALREADY TRANSFORMED `pos.xy`. -/
def gpuVertexMain (sn : ℝ → ℝ → ℝ → ℝ) (u : ShaderUniforms)
    (position : Vec3) (time : ℝ) : Vec3 :=
  let pos2 := gpuStage2 sn u position time
  let chladniPos := applyChladniTransformG sn u (pos2.x, pos2.y) time
  ⟨pos2.x, pos2.y, pos2.z + chladniPos.z⟩

/-- Modelled from the spec: the variant of the shader `main` that claim C4
asserts, in which the Chladni stage's frequency (and noise) arguments are the
ORIGINAL base coordinates `position.xy` rather than the stage-2 result. -/
def gpuVertexMainBaseChladni (sn : ℝ → ℝ → ℝ → ℝ) (u : ShaderUniforms)
    (position : Vec3) (time : ℝ) : Vec3 :=
  let pos2 := gpuStage2 sn u position time
  let chladniPos := applyChladniTransformG sn u (position.x, position.y) time
  ⟨pos2.x, pos2.y, pos2.z + chladniPos.z⟩

/-- A concrete noise instance (identically zero) used for closed evaluations;
all noise terms are multiplied by a zero `noiseScale` in those evaluations
anyway. -/
def cexNoise : ℝ → ℝ → ℝ → ℝ := fun _ _ _ => 0

/-- Concrete shader uniforms for the C4 counterexample: classical mode with
`a=(2,0)` (a pure doubling), `b=c=(0,0)`, `d=(1,0)`, frequencies 1,
amplitude 1, `noiseScale = 0`, `animationSpeed = 0`. -/
def cexUniforms : ShaderUniforms := ⟨1, 1, 1, true, 0, 0, 0, (2, 0), (0, 0), (0, 0), (1, 0)⟩

/-- The base vertex `(π/2, π/2, 0)` of the C4 counterexample: the Möbius map
doubles it to `(π, π)`, where the wave factor `sin(π)` vanishes although the
base-coordinate wave factor `sin(π/2)` equals 1. -/
def cexPos : Vec3 := ⟨Real.pi / 2, Real.pi / 2, 0⟩

/-! ## Rotation modulator (src/state.js, `updateRotationDirection`).

The source switches on the pattern string; unknown strings take the `default`
branch, modelled by the `unknown` constructor.  `Math.random() > 0.5` is
modelled by a per-step boolean oracle.  The function reads the runtime fields
`rotationDirection`, `lastRotationTime` and `rotationTimer` from the state
store; they are passed explicitly here, and the pair
`(direction, lastSwitchTime)` is returned in place of the mutation. -/

inductive RotPattern where
  | kaprekar
  | heaviside
  | sine
  | random
  | unknown
deriving DecidableEq

structure RotationModulation where
  enabled : Bool
  interval : ℝ
  pattern : RotPattern
  patternThreshold : ℤ

/-- The `switch (rotationModulation.pattern)` computing `newDirection`. -/
def newDirection (p : RotPattern) (threshold : ℤ) (direction : ℤ)
    (rotationTimer : ℝ) (rand : Bool) : ℤ :=
  match p with
  | .kaprekar => if ⌊rotationTimer * 10⌋ % 7 < threshold then -1 else 1
  | .heaviside => direction * (-1)
  | .sine => if 0 < Real.sin rotationTimer then 1 else -1
  | .random => if rand then 1 else -1
  | .unknown => direction * (-1)

/-- `updateRotationDirection(currentTime)` from src/state.js; returns the new
`(rotationDirection, lastRotationTime)` pair. -/
def updateRotationDirection (m : RotationModulation) (direction : ℤ)
    (lastRotationTime rotationTimer : ℝ) (rand : Bool) : ℤ × ℝ :=
  if m.enabled = false then (direction, lastRotationTime)
  else if rotationTimer - lastRotationTime > m.interval then
    (newDirection m.pattern m.patternThreshold direction rotationTimer rand, rotationTimer)
  else (direction, lastRotationTime)

/-- A whole sequence of modulator steps: fold `updateRotationDirection` over a
list of per-frame inputs (timer value, random-oracle value). -/
def runRotationSteps (m : RotationModulation) (s : ℤ × ℝ)
    (ins : List (ℝ × Bool)) : ℤ × ℝ :=
  ins.foldl (fun st i => updateRotationDirection m st.1 st.2 i.1 i.2) s

/-- The identity coefficient set `a=(1,0), b=(0,0), c=(0,0), d=(1,0)` of
claims C1 and C5, with a free animation speed. -/
def idMobius (speed : ℝ) : MobiusParams := ⟨1, 0, 0, 0, 0, 0, 1, 0, speed⟩

/-- The coefficient set of claim C6's particular case: `c=(1,0)`, `d=(0,0)`,
with the defaults `a=(1,0)`, `b=(0,0)` (denominator exactly `z`). -/
def regMobius : MobiusParams := ⟨1, 0, 0, 0, 1, 0, 0, 0, 0⟩

end

/-! ## Supporting lemmas -/

section MatLemmas

theorem idMat4_mul (m : Mat4) : idMat4.mul m = m := by
  simp [idMat4, Mat4.mul]

theorem mkTranslation_mul (a b c d e f : ℝ) :
    (mkTranslation a b c).mul (mkTranslation d e f) = mkTranslation (a + d) (b + e) (c + f) := by
  simp only [mkTranslation, Mat4.mul, Mat4.mk.injEq]
  norm_num
  exact ⟨by ring, by ring, by ring⟩

theorem applyMatrix4_mkTranslation (a b c u v w : ℝ) :
    applyMatrix4 (mkTranslation a b c) ⟨u, v, w⟩ = ⟨u + a, v + b, w + c⟩ := by
  simp [mkTranslation, applyMatrix4]

theorem setFromMatrixPosition_mkTranslation (a b c : ℝ) :
    setFromMatrixPosition (mkTranslation a b c) = ⟨a, b, c⟩ := rfl

theorem applyClassicalMobius_idMobius (x y time speed : ℝ) :
    applyClassicalMobius x y time (idMobius speed) =
      ⟨Real.cos (time * speed) * x - Real.sin (time * speed) * y,
       Real.sin (time * speed) * x + Real.cos (time * speed) * y, 0⟩ := by
  unfold applyClassicalMobius mobiusNumerator mobiusDenominator mobiusRotatedA idMobius
  simp only
  rw [if_neg (by norm_num)]
  rw [Vec3.mk.injEq]
  refine ⟨by ring, by ring, rfl⟩

end MatLemmas

/-! ## Claim theorems -/

/-- C5 counterexample: with identity coefficients `a=(1,0), b=(0,0), c=(0,0),
d=(1,0)` and the default animation speed `0.1`, the classical Möbius transform
does NOT leave `(2.0, -3.5)` unchanged at time `5π` (the rotated coefficient
`a` has phase `π/2`, so the point is rotated to `(3.5, 2)`). -/
theorem classicalMobius_identity_time_counterexample :
    applyClassicalMobius 2 (-3.5) (5 * Real.pi) (idMobius 0.1) ≠ ⟨2, -3.5, 0⟩ := by
  have hphase : 5 * Real.pi * (0.1 : ℝ) = Real.pi / 2 := by ring_nf
  intro h
  unfold applyClassicalMobius mobiusNumerator mobiusDenominator mobiusRotatedA idMobius at h
  simp only at h
  rw [hphase, Real.cos_pi_div_two, Real.sin_pi_div_two] at h
  rw [if_neg (by norm_num)] at h
  rw [Vec3.mk.injEq] at h
  obtain ⟨h1, -, -⟩ := h
  norm_num at h1

/-- C5 (amended): with identity coefficients the classical Möbius transform
rotates `(x, y)` about the origin by the phase `time · animationSpeed` (because
the coefficient `a` is itself rotated by that phase); in particular it is the
identity whenever that phase is zero — e.g. at `time = 0`, where
`(2.0, -3.5) ↦ (2.0, -3.5)`. -/
theorem classicalMobius_identity_coeffs :
    ∀ (x y time speed : ℝ),
      applyClassicalMobius x y time (idMobius speed) =
        ⟨Real.cos (time * speed) * x - Real.sin (time * speed) * y,
         Real.sin (time * speed) * x + Real.cos (time * speed) * y, 0⟩ ∧
      applyClassicalMobius x y 0 (idMobius speed) = ⟨x, y, 0⟩ ∧
      applyClassicalMobius 2 (-3.5) 0 (idMobius speed) = ⟨2, -3.5, 0⟩ := by
  have key := applyClassicalMobius_idMobius
  intro x y time speed
  refine ⟨key x y time speed, ?_, ?_⟩
  · rw [key x y 0 speed]
    simp
  · rw [key 2 (-3.5) 0 speed]
    norm_num

/-- C6: whenever `|c·z+d|² < 1e-4`, the classical Möbius transform performs no
division by the denominator: if the numerator's magnitude is also below the
threshold the result is the origin, otherwise the result is the numerator
scaled by the positive factor `1000/|num|`, giving magnitude exactly `1000`;
the GLSL `complex_div` implements the same guard; and in particular with
`a=(1,0), b=(0,0), c=(1,0), d=(0,0)` and input `z=(0,0)` the result is `(0,0)`
for every time and animation speed. -/
theorem classicalMobius_regularization :
    (∀ (x y t : ℝ) (p : MobiusParams),
      (mobiusDenominator x y p).1 * (mobiusDenominator x y p).1 +
        (mobiusDenominator x y p).2 * (mobiusDenominator x y p).2 < 0.0001 →
      (Real.sqrt ((mobiusNumerator x y t p).1 * (mobiusNumerator x y t p).1 +
          (mobiusNumerator x y t p).2 * (mobiusNumerator x y t p).2) < 0.0001 ∧
        applyClassicalMobius x y t p = ⟨0, 0, 0⟩) ∨
      (¬ Real.sqrt ((mobiusNumerator x y t p).1 * (mobiusNumerator x y t p).1 +
          (mobiusNumerator x y t p).2 * (mobiusNumerator x y t p).2) < 0.0001 ∧
        0 < 1000 / Real.sqrt ((mobiusNumerator x y t p).1 * (mobiusNumerator x y t p).1 +
          (mobiusNumerator x y t p).2 * (mobiusNumerator x y t p).2) ∧
        applyClassicalMobius x y t p =
          ⟨(mobiusNumerator x y t p).1 *
            (1000 / Real.sqrt ((mobiusNumerator x y t p).1 * (mobiusNumerator x y t p).1 +
              (mobiusNumerator x y t p).2 * (mobiusNumerator x y t p).2)),
           (mobiusNumerator x y t p).2 *
            (1000 / Real.sqrt ((mobiusNumerator x y t p).1 * (mobiusNumerator x y t p).1 +
              (mobiusNumerator x y t p).2 * (mobiusNumerator x y t p).2)), 0⟩ ∧
        Real.sqrt ((applyClassicalMobius x y t p).x * (applyClassicalMobius x y t p).x +
          (applyClassicalMobius x y t p).y * (applyClassicalMobius x y t p).y) = 1000)) ∧
    (∀ a b : ℝ × ℝ, b.1 * b.1 + b.2 * b.2 < 0.0001 →
      (Real.sqrt (a.1 * a.1 + a.2 * a.2) < 0.0001 ∧ complex_div a b = (0, 0)) ∨
      (¬ Real.sqrt (a.1 * a.1 + a.2 * a.2) < 0.0001 ∧
        complex_div a b = (a.1 * (1000 / Real.sqrt (a.1 * a.1 + a.2 * a.2)),
          a.2 * (1000 / Real.sqrt (a.1 * a.1 + a.2 * a.2))))) ∧
    (∀ t s : ℝ, applyClassicalMobius 0 0 t ⟨1, 0, 0, 0, 1, 0, 0, 0, s⟩ = ⟨0, 0, 0⟩) := by
  have sqrt_scaled : ∀ n1 n2 : ℝ, ¬ Real.sqrt (n1 * n1 + n2 * n2) < 0.0001 →
      Real.sqrt ((n1 * (1000 / Real.sqrt (n1 * n1 + n2 * n2))) *
        (n1 * (1000 / Real.sqrt (n1 * n1 + n2 * n2))) +
        (n2 * (1000 / Real.sqrt (n1 * n1 + n2 * n2))) *
        (n2 * (1000 / Real.sqrt (n1 * n1 + n2 * n2)))) = 1000 := by
    intro n1 n2 hm
    set mag := Real.sqrt (n1 * n1 + n2 * n2) with hmagDef
    have hmagPos : 0 < mag := lt_of_lt_of_le (by norm_num) (not_lt.1 hm)
    have hmagSq : mag * mag = n1 * n1 + n2 * n2 :=
      Real.mul_self_sqrt (add_nonneg (mul_self_nonneg n1) (mul_self_nonneg n2))
    have hexp : (n1 * (1000 / mag)) * (n1 * (1000 / mag)) +
        (n2 * (1000 / mag)) * (n2 * (1000 / mag)) =
        ((1000 / mag) * mag) * ((1000 / mag) * mag) := by
      have : (n1 * (1000 / mag)) * (n1 * (1000 / mag)) +
          (n2 * (1000 / mag)) * (n2 * (1000 / mag)) =
          (1000 / mag) * (1000 / mag) * (n1 * n1 + n2 * n2) := by ring
      rw [this, ← hmagSq]; ring
    rw [hexp]
    have hcollapse : (1000 / mag) * mag = 1000 := by
      field_simp
    rw [hcollapse]
    have : Real.sqrt ((1000 : ℝ) * 1000) = Real.sqrt (1000 ^ 2) := by norm_num [pow_two]
    rw [this, Real.sqrt_sq (by norm_num)]
  refine ⟨?_, ?_, ?_⟩
  · intro x y t p h
    by_cases hm : Real.sqrt ((mobiusNumerator x y t p).1 * (mobiusNumerator x y t p).1 +
        (mobiusNumerator x y t p).2 * (mobiusNumerator x y t p).2) < 0.0001
    · left
      refine ⟨hm, ?_⟩
      unfold applyClassicalMobius
      rw [if_pos h, if_pos hm]
    · right
      have hres : applyClassicalMobius x y t p =
          ⟨(mobiusNumerator x y t p).1 *
            (1000 / Real.sqrt ((mobiusNumerator x y t p).1 * (mobiusNumerator x y t p).1 +
              (mobiusNumerator x y t p).2 * (mobiusNumerator x y t p).2)),
           (mobiusNumerator x y t p).2 *
            (1000 / Real.sqrt ((mobiusNumerator x y t p).1 * (mobiusNumerator x y t p).1 +
              (mobiusNumerator x y t p).2 * (mobiusNumerator x y t p).2)), 0⟩ := by
        unfold applyClassicalMobius
        rw [if_pos h, if_neg hm]
      have hmagPos : (0 : ℝ) <
          Real.sqrt ((mobiusNumerator x y t p).1 * (mobiusNumerator x y t p).1 +
            (mobiusNumerator x y t p).2 * (mobiusNumerator x y t p).2) :=
        lt_of_lt_of_le (by norm_num) (not_lt.1 hm)
      refine ⟨hm, div_pos (by norm_num) hmagPos, hres, ?_⟩
      rw [hres]
      exact sqrt_scaled _ _ hm
  · intro a b h
    by_cases hm : Real.sqrt (a.1 * a.1 + a.2 * a.2) < 0.0001
    · left
      refine ⟨hm, ?_⟩
      unfold complex_div
      rw [if_pos h, if_pos hm]
    · right
      refine ⟨hm, ?_⟩
      unfold complex_div
      rw [if_pos h, if_neg hm]
  · intro t s
    unfold applyClassicalMobius mobiusNumerator mobiusDenominator mobiusRotatedA
    simp only
    rw [if_pos (by norm_num), if_pos ?hmag]
    case hmag =>
      have h0 : ((1 : ℝ) * Real.cos (t * s) - 0 * Real.sin (t * s)) * 0 -
          (1 * Real.sin (t * s) + 0 * Real.cos (t * s)) * 0 + 0 = 0 := by ring
      have h1 : ((1 : ℝ) * Real.cos (t * s) - 0 * Real.sin (t * s)) * 0 +
          (1 * Real.sin (t * s) + 0 * Real.cos (t * s)) * 0 + 0 = 0 := by ring
      rw [h0, h1]
      norm_num

/-- Witness for C6: with `c=(1,0)`, `d=(0,0)` and input `z=(0,0)` the
denominator magnitude is below the threshold, and the regularized result is
the origin. -/
theorem classicalMobius_regularization_witness :
    ((mobiusDenominator 0 0 regMobius).1 * (mobiusDenominator 0 0 regMobius).1 +
      (mobiusDenominator 0 0 regMobius).2 * (mobiusDenominator 0 0 regMobius).2 < 0.0001) ∧
    applyClassicalMobius 0 0 0 regMobius = ⟨0, 0, 0⟩ := by
  have h : (mobiusDenominator 0 0 regMobius).1 * (mobiusDenominator 0 0 regMobius).1 +
      (mobiusDenominator 0 0 regMobius).2 * (mobiusDenominator 0 0 regMobius).2 < 0.0001 := by
    norm_num [mobiusDenominator, regMobius]
  refine ⟨h, ?_⟩
  rcases classicalMobius_regularization.1 0 0 0 regMobius h with ⟨-, h2⟩ | ⟨hc, -⟩
  · exact h2
  · refine absurd ?_ hc
    have hnum : mobiusNumerator 0 0 0 regMobius = (0, 0) := by
      simp [mobiusNumerator, mobiusRotatedA, regMobius]
    rw [hnum]
    norm_num

/-- C3: the CURRENT transformation.js revision of `createEnhancedMobiusMatrix`
always fails (it reads the undeclared identifier `adjustedTwistAngle`, whose
initialiser is commented out, so each evaluation throws a `ReferenceError`
instead of building the Z rotation from the computed twist angle); the claimed
behaviour is exhibited by the module's own earlier revision (part_002) and by
the GLSL shader: the primary twist angle equals
`factor·r·(1 + 0.5·sin(0.5·z)) + 0.1·time·(1 + noiseScale·n(0.2x, 0.2y))`,
the Z rotation is built from it, and the composition `Rx·Ry·Rz` is applied. -/
theorem enhancedMobius_adjustedTwistAngle_bug :
    (∀ (noise2 : ℝ → ℝ → ℝ) (x y z time factor noiseScale : ℝ),
      createEnhancedMobiusMatrixJs noise2 x y z time factor noiseScale = none) ∧
    (∀ (noise2 : ℝ → ℝ → ℝ) (x y z time factor noiseScale : ℝ),
      computeTwistAngle noise2 x y z time factor noiseScale =
        factor * Real.sqrt (x ^ 2 + y ^ 2) * (1 + 0.5 * Real.sin (0.5 * z)) +
          0.1 * time * (1 + noiseScale * noise2 (0.2 * x) (0.2 * y))) ∧
    (∀ (noise2 : ℝ → ℝ → ℝ) (x y z time factor noiseScale : ℝ),
      createEnhancedMobiusMatrixP2 noise2 x y z time factor noiseScale =
        ((mkRotationX (factor * 0.3 * noise2 (x * 0.15) (time * 0.05) * noiseScale)).mul
          (mkRotationY (factor * 0.5 * (Real.sin (Real.sqrt (x * x + y * y)) +
              noise2 (x * 0.1 + time * 0.05) (y * 0.1) * noiseScale * 0.5)))).mul
            (mkRotationZ (computeTwistAngle noise2 x y z time factor noiseScale))) ∧
    (∀ (sn : ℝ → ℝ → ℝ → ℝ) (u : ShaderUniforms) (pos : Vec3) (time : ℝ),
      applyEnhancedMobiusG sn u pos time =
        (let θz := computeTwistAngle (snoise2 sn) pos.x pos.y pos.z time
          u.uMobiusFactor u.uNoiseScale
        let rotZ := mat3CM (Real.cos θz) (-Real.sin θz) 0 (Real.sin θz) (Real.cos θz) 0 0 0 1
        let θy := u.uMobiusFactor * 0.5 * (Real.sin (Real.sqrt (pos.x * pos.x + pos.y * pos.y)) +
          snoise2 sn (pos.x * 0.1 + time * 0.05) (pos.y * 0.1) * u.uNoiseScale * 0.5)
        let rotY := mat3CM (Real.cos θy) 0 (-Real.sin θy) 0 1 0 (Real.sin θy) 0 (Real.cos θy)
        let θx := u.uMobiusFactor * 0.3 * snoise2 sn (pos.x * 0.15) (time * 0.05) * u.uNoiseScale
        let rotX := mat3CM 1 0 0 0 (Real.cos θx) (-Real.sin θx) 0 (Real.sin θx) (Real.cos θx)
        ((rotX.mul rotY).mul rotZ).mulVec pos)) := by
  refine ⟨fun _ _ _ _ _ _ _ => rfl, ?_, ?_, ?_⟩
  · intro noise2 x y z time factor noiseScale
    unfold computeTwistAngle
    simp only
    rw [show x ^ 2 + y ^ 2 = x * x + y * y from by ring]
    ring_nf
  · intro noise2 x y z time factor noiseScale
    unfold createEnhancedMobiusMatrixP2
    simp only [idMat4_mul]
  · intro sn u pos time
    unfold applyEnhancedMobiusG computeTwistAngle
    rfl

section RotationLemmas

theorem updateRotation_guard_off (m : RotationModulation) (dir : ℤ)
    (last timer : ℝ) (rand : Bool)
    (h : ¬(m.enabled = true ∧ timer - last > m.interval)) :
    updateRotationDirection m dir last timer rand = (dir, last) := by
  unfold updateRotationDirection
  by_cases he : m.enabled = false
  · rw [if_pos he]
  · rw [if_neg he]
    have htrig : ¬ timer - last > m.interval := by
      intro ht
      exact h ⟨by simpa using he, ht⟩
    rw [if_neg htrig]

theorem updateRotation_change (m : RotationModulation) (dir : ℤ)
    (last timer : ℝ) (rand : Bool)
    (h : (updateRotationDirection m dir last timer rand).1 ≠ dir) :
    timer - last > m.interval ∧
      (updateRotationDirection m dir last timer rand).2 = timer := by
  unfold updateRotationDirection at h ⊢
  by_cases he : m.enabled = false
  · rw [if_pos he] at h
    exact absurd rfl h
  · rw [if_neg he] at h ⊢
    by_cases htrig : timer - last > m.interval
    · rw [if_pos htrig]
      exact ⟨htrig, rfl⟩
    · rw [if_neg htrig] at h
      exact absurd rfl h

theorem updateRotation_last_mono (m : RotationModulation) (hi : 0 < m.interval)
    (dir : ℤ) (last timer : ℝ) (rand : Bool) :
    last ≤ (updateRotationDirection m dir last timer rand).2 := by
  unfold updateRotationDirection
  by_cases he : m.enabled = false
  · rw [if_pos he]
  · rw [if_neg he]
    by_cases htrig : timer - last > m.interval
    · rw [if_pos htrig]
      have : last + m.interval < timer := by linarith [htrig]
      simp only
      linarith
    · rw [if_neg htrig]

theorem runRotation_last_mono (m : RotationModulation) (hi : 0 < m.interval)
    (ins : List (ℝ × Bool)) : ∀ s : ℤ × ℝ, s.2 ≤ (runRotationSteps m s ins).2 := by
  induction ins with
  | nil => intro s; exact le_refl _
  | cons i tl ih =>
    intro s
    have h1 : s.2 ≤ (updateRotationDirection m s.1 s.2 i.1 i.2).2 :=
      updateRotation_last_mono m hi s.1 s.2 i.1 i.2
    have h2 := ih (updateRotationDirection m s.1 s.2 i.1 i.2)
    calc s.2 ≤ (updateRotationDirection m s.1 s.2 i.1 i.2).2 := h1
      _ ≤ _ := h2

end RotationLemmas

/-- C10: (a) whenever the trigger guard (`enabled` and
`elapsedTimer - lastSwitchTime > interval`) is false, a modulator step leaves
both the direction and the last-switch time unchanged; (b) in any run with a
fixed positive interval, if a step with timer `ti` changes the stored
direction and, after any further steps, a later step with timer `tj` changes
it again, then `tj - ti > interval` — the direction changes at most once per
interval. -/
theorem rotationModulator_guard_and_interval :
    (∀ (m : RotationModulation) (dir : ℤ) (last timer : ℝ) (rand : Bool),
      ¬(m.enabled = true ∧ timer - last > m.interval) →
      updateRotationDirection m dir last timer rand = (dir, last)) ∧
    (∀ (m : RotationModulation), 0 < m.interval →
      ∀ (di : ℤ) (li ti : ℝ) (ri : Bool) (ins2 : List (ℝ × Bool)) (tj : ℝ) (rj : Bool),
      (updateRotationDirection m di li ti ri).1 ≠ di →
      (updateRotationDirection m
        (runRotationSteps m (updateRotationDirection m di li ti ri) ins2).1
        (runRotationSteps m (updateRotationDirection m di li ti ri) ins2).2 tj rj).1 ≠
        (runRotationSteps m (updateRotationDirection m di li ti ri) ins2).1 →
      tj - ti > m.interval) := by
  refine ⟨updateRotation_guard_off, ?_⟩
  intro m hi di li ti ri ins2 tj rj hci hcj
  obtain ⟨-, hlast_i⟩ := updateRotation_change m di li ti ri hci
  obtain ⟨htrig_j, -⟩ := updateRotation_change m _ _ tj rj hcj
  have hmono := runRotation_last_mono m hi ins2 (updateRotationDirection m di li ti ri)
  rw [hlast_i] at hmono
  linarith

/-- Witness for C10: a disabled step at timer 100 leaves the state unchanged,
and a concrete heaviside run (interval 1, changes at timers 2 and 4) advances
the timer by more than the interval between the two direction changes. -/
theorem rotationModulator_guard_and_interval_witness :
    (¬((⟨false, 1, .heaviside, 3⟩ : RotationModulation).enabled = true ∧
        (100 : ℝ) - 0 > (⟨false, 1, .heaviside, 3⟩ : RotationModulation).interval) ∧
      updateRotationDirection ⟨false, 1, .heaviside, 3⟩ 1 0 100 false = (1, 0)) ∧
    ((0 : ℝ) < (⟨true, 1, .heaviside, 3⟩ : RotationModulation).interval ∧
      (updateRotationDirection ⟨true, 1, .heaviside, 3⟩ 1 0 2 false).1 ≠ 1 ∧
      (4 : ℝ) - 2 > (⟨true, 1, .heaviside, 3⟩ : RotationModulation).interval) := by
  have hg : ¬((⟨false, 1, .heaviside, 3⟩ : RotationModulation).enabled = true ∧
      (100 : ℝ) - 0 > (⟨false, 1, .heaviside, 3⟩ : RotationModulation).interval) := by
    simp
  have hstep : (updateRotationDirection ⟨true, 1, .heaviside, 3⟩ 1 0 2 false).1 ≠ 1 := by
    norm_num [updateRotationDirection, newDirection]
  have hstep2 : (updateRotationDirection ⟨true, 1, .heaviside, 3⟩
      (runRotationSteps ⟨true, 1, .heaviside, 3⟩
        (updateRotationDirection ⟨true, 1, .heaviside, 3⟩ 1 0 2 false) []).1
      (runRotationSteps ⟨true, 1, .heaviside, 3⟩
        (updateRotationDirection ⟨true, 1, .heaviside, 3⟩ 1 0 2 false) []).2 4 false).1 ≠
      (runRotationSteps ⟨true, 1, .heaviside, 3⟩
        (updateRotationDirection ⟨true, 1, .heaviside, 3⟩ 1 0 2 false) []).1 := by
    norm_num [updateRotationDirection, newDirection, runRotationSteps]
  refine ⟨⟨hg, rotationModulator_guard_and_interval.1 _ 1 0 100 false hg⟩,
    by norm_num, hstep, ?_⟩
  exact rotationModulator_guard_and_interval.2 ⟨true, 1, .heaviside, 3⟩ (by norm_num)
    1 0 2 false [] 4 false hstep hstep2

section CacheLemmas

theorem cache_lookup_mem {es : List ((ℤ × ℤ) × GridCell)} {k : ℤ × ℤ} {c : GridCell}
    (h : es.lookup k = some c) : (k, c) ∈ es := by
  induction es with
  | nil => simp at h
  | cons e tl ih =>
    rw [show e = (e.1, e.2) from rfl, List.lookup_cons] at h
    by_cases hk : k = e.1
    · simp only [hk, beq_self_eq_true] at h
      injection h with h
      exact List.mem_cons.2 (Or.inl (by rw [hk, ← h]))
    · have hbeq : (k == e.1) = false := by simpa using hk
      rw [hbeq] at h
      exact List.mem_cons_of_mem _ (ih h)

theorem cache_lookup_none_forall {es : List ((ℤ × ℤ) × GridCell)} {k : ℤ × ℤ}
    (h : es.lookup k = none) : ∀ e ∈ es, e.1 ≠ k := by
  induction es with
  | nil => intro e he; simp at he
  | cons e tl ih =>
    rw [show e = (e.1, e.2) from rfl, List.lookup_cons] at h
    intro e' he'
    rcases List.mem_cons.1 he' with rfl | hm
    · intro hk
      simp only [hk.symm, beq_self_eq_true] at h
      exact Option.noConfusion h
    · by_cases hk : k = e.1
      · simp only [hk, beq_self_eq_true] at h
        exact Option.noConfusion h
      · have hbeq : (k == e.1) = false := by simpa using hk
        rw [hbeq] at h
        exact ih h e' hm

theorem getGridCell_cached {σ : CellCache} {k : ℤ × ℤ} {c : GridCell}
    (h : σ.entries.lookup k = some c) : getGridCell k σ = (c, σ) := by
  unfold getGridCell
  rw [h]

theorem getGridCell_fresh {σ : CellCache} {k : ℤ × ℤ}
    (h : σ.entries.lookup k = none) :
    getGridCell k σ = (⟨σ.nextRef, k.1, k.2⟩,
      ⟨(k, ⟨σ.nextRef, k.1, k.2⟩) :: σ.entries, σ.nextRef + 1⟩) := by
  unfold getGridCell
  rw [h]

theorem getGridCell_wf {σ : CellCache} (hWF : WFCache σ) (k : ℤ × ℤ) :
    WFCache (getGridCell k σ).2 := by
  cases h : σ.entries.lookup k with
  | some c => rw [getGridCell_cached h]; exact hWF
  | none =>
    rw [getGridCell_fresh h]
    obtain ⟨h1, h2⟩ := hWF
    constructor
    · intro e he
      rcases List.mem_cons.1 he with rfl | hm
      · exact ⟨rfl, Nat.lt_succ_self _⟩
      · obtain ⟨hc, hr⟩ := h1 e hm
        exact ⟨hc, Nat.lt_succ_of_lt hr⟩
    · refine List.Pairwise.cons ?_ h2
      intro e he
      obtain ⟨-, hr⟩ := h1 e he
      exact ⟨(cache_lookup_none_forall h e he).symm, fun hre => by
        rw [← hre] at hr; exact absurd hr (lt_irrefl _)⟩

theorem getGridCell_coords {σ : CellCache} (hWF : WFCache σ) (k : ℤ × ℤ) :
    (getGridCell k σ).1.baseX = k.1 ∧ (getGridCell k σ).1.baseY = k.2 := by
  cases h : σ.entries.lookup k with
  | some c =>
    rw [getGridCell_cached h]
    have := (hWF.1 _ (cache_lookup_mem h)).1
    rw [Prod.mk.injEq] at this
    exact this
  | none => rw [getGridCell_fresh h]; exact ⟨rfl, rfl⟩

theorem cache_refs_distinct {σ : CellCache} (hWF : WFCache σ) {k k' : ℤ × ℤ}
    {c c' : GridCell} (hk : σ.entries.lookup k = some c)
    (hk' : σ.entries.lookup k' = some c') (hne : k ≠ k') : c.ref ≠ c'.ref := by
  have hsymm : Symmetric (fun (e1 e2 : (ℤ × ℤ) × GridCell) =>
      e1.1 ≠ e2.1 ∧ e1.2.ref ≠ e2.2.ref) :=
    fun a b h => ⟨h.1.symm, h.2.symm⟩
  have hab : ((k, c) : (ℤ × ℤ) × GridCell) ≠ (k', c') := by
    intro he
    exact hne (congrArg Prod.fst he)
  exact (hWF.2.forall hsymm (cache_lookup_mem hk) (cache_lookup_mem hk') hab).2

end CacheLemmas

/-- C8: under the cache well-formedness invariant (which holds for the fresh
module-level cache and is preserved by every call), `getGridCell` returns the
same cell object (same allocation identity `ref`) when called twice with equal
coordinates, leaving the cache untouched on the repeat, and two calls with
different coordinates return cells with distinct allocation identities. -/
theorem cellCache_identity :
    ∀ (σ : CellCache), WFCache σ → ∀ k k' : ℤ × ℤ,
      getGridCell k (getGridCell k σ).2 = ((getGridCell k σ).1, (getGridCell k σ).2) ∧
      (k ≠ k' → (getGridCell k' (getGridCell k σ).2).1.ref ≠ (getGridCell k σ).1.ref) := by
  intro σ hWF k k'
  constructor
  · cases h : σ.entries.lookup k with
    | some c =>
      rw [getGridCell_cached h]
      simp only
      exact getGridCell_cached h
    | none =>
      rw [getGridCell_fresh h]
      simp only
      apply getGridCell_cached
      simp [List.lookup_cons]
  · intro hne
    cases h : σ.entries.lookup k with
    | some c =>
      rw [getGridCell_cached h]
      simp only
      cases h' : σ.entries.lookup k' with
      | some c' =>
        rw [getGridCell_cached h']
        exact cache_refs_distinct hWF h' h (Ne.symm hne)
      | none =>
        rw [getGridCell_fresh h']
        simp only
        have hlt : c.ref < σ.nextRef := by simpa using (hWF.1 _ (cache_lookup_mem h)).2
        omega
    | none =>
      rw [getGridCell_fresh h]
      simp only
      have hbeq : (k' == k) = false := by simpa using (Ne.symm hne)
      cases h' : σ.entries.lookup k' with
      | some c' =>
        have hl : ((k, (⟨σ.nextRef, k.1, k.2⟩ : GridCell)) :: σ.entries).lookup k' = some c' := by
          rw [List.lookup_cons, hbeq]
          exact h'
        rw [getGridCell_cached (σ := ⟨_, _⟩) hl]
        have hlt : c'.ref < σ.nextRef := by simpa using (hWF.1 _ (cache_lookup_mem h')).2
        simp only
        omega
      | none =>
        have hl : ((k, (⟨σ.nextRef, k.1, k.2⟩ : GridCell)) :: σ.entries).lookup k' = none := by
          rw [List.lookup_cons, hbeq]
          exact h'
        rw [getGridCell_fresh (σ := ⟨_, _⟩) hl]
        simp only
        omega

/-- Witness for C8: from the fresh cache, `getOrCreate(3,5)` twice returns the
same object and leaves the cache unchanged, while `getOrCreate(3,5)` then
`getOrCreate(5,3)` return objects with distinct identities. -/
theorem cellCache_identity_witness :
    WFCache emptyCache ∧ ((3, 5) : ℤ × ℤ) ≠ (5, 3) ∧
      (getGridCell (3, 5) (getGridCell (3, 5) emptyCache).2 =
        ((getGridCell (3, 5) emptyCache).1, (getGridCell (3, 5) emptyCache).2) ∧
      (((3, 5) : ℤ × ℤ) ≠ (5, 3) →
        (getGridCell (5, 3) (getGridCell (3, 5) emptyCache).2).1.ref ≠
          (getGridCell (3, 5) emptyCache).1.ref)) := by
  have hwf : WFCache emptyCache := ⟨by simp [emptyCache], by simp [emptyCache]⟩
  exact ⟨hwf, by decide, cellCache_identity emptyCache hwf (3, 5) (5, 3)⟩

section BuildLemmas

theorem enumFold_mem_mono {a : GridCell} :
    ∀ (ks : List (ℤ × ℤ)) (p : List GridCell × CellCache),
      a ∈ p.1 → a ∈ (ks.foldl enumStep p).1 := by
  intro ks
  induction ks with
  | nil => intro p hp; exact hp
  | cons k tl ih =>
    intro p hp
    exact ih (enumStep p k) (List.mem_append_left _ hp)

theorem enumStep_lookup_preserved {k0 : ℤ × ℤ} {c : GridCell}
    (p : List GridCell × CellCache) (k : ℤ × ℤ)
    (h : p.2.entries.lookup k0 = some c) :
    ((enumStep p k).2).entries.lookup k0 = some c := by
  unfold enumStep
  cases hk : p.2.entries.lookup k with
  | some c' => rw [getGridCell_cached hk]; exact h
  | none =>
    rw [getGridCell_fresh hk]
    simp only
    have hne : (k0 == k) = false := by
      by_cases hkk : k0 = k
      · rw [hkk] at h; rw [h] at hk; exact Option.noConfusion hk
      · simpa using hkk
    rw [List.lookup_cons, hne]
    exact h

theorem enumFold_returns_cached {k0 : ℤ × ℤ} {c : GridCell} :
    ∀ (ks : List (ℤ × ℤ)) (p : List GridCell × CellCache),
      k0 ∈ ks → p.2.entries.lookup k0 = some c →
      c ∈ (ks.foldl enumStep p).1 := by
  intro ks
  induction ks with
  | nil => intro p hk; simp at hk
  | cons k tl ih =>
    intro p hk h
    rcases List.mem_cons.1 hk with rfl | hm
    · have hstep : enumStep p k0 = (p.1 ++ [c], p.2) := by
        unfold enumStep
        rw [getGridCell_cached h]
      rw [List.foldl_cons, hstep]
      exact enumFold_mem_mono tl _ (List.mem_append_right _ (List.mem_singleton.2 rfl))
    · rw [List.foldl_cons]
      exact ih (enumStep p k) hm (enumStep_lookup_preserved p k h)

theorem mem_coordList {rows cols x y : ℕ} (hx : x < cols) (hy : y < rows) :
    ((x : ℤ), (y : ℤ)) ∈ coordList rows cols := by
  unfold coordList
  refine List.mem_flatMap.2 ⟨y, List.mem_range.2 hy, ?_⟩
  refine List.mem_map.2 ⟨x, List.mem_range.2 hx, rfl⟩

end BuildLemmas

/-- C9 counterexample: building a 2×2 grid and then, after the configuration
change, a 4×4 grid does NOT produce all-new cell objects — the cell allocated
for coordinate (0,0) by the first build (allocation id 0) is returned again,
reference-equal, by the second build.  The module-level cache is never
reconstructed on a configuration change. -/
theorem gridCache_not_fresh_counterexample :
    (⟨0, 0, 0⟩ : GridCell) ∈ (generateGridS 2 2 emptyCache).1 ∧
    (⟨0, 0, 0⟩ : GridCell) ∈ (generateGridS 4 4 (generateGridS 2 2 emptyCache).2).1 := by
  decide

/-- C9 (amended): the cell cache persists for the whole session; it is NOT
reconstructed on a grid configuration change.  Any build — in particular a
build after a configuration change — returns, for every coordinate already in
the cache and in range, the very cell object cached earlier (reference
equality), rather than a fresh object. -/
theorem gridCache_persists_across_builds :
    ∀ (σ : CellCache) (rows cols x y : ℕ) (c : GridCell),
      x < cols → y < rows → σ.entries.lookup ((x : ℤ), (y : ℤ)) = some c →
      c ∈ (generateGridS rows cols σ).1 := by
  intro σ rows cols x y c hx hy h
  have hmem : c ∈ (enumCells σ rows cols).1 :=
    enumFold_returns_cached (coordList rows cols) ([], σ) (mem_coordList hx hy) h
  unfold generateGridS
  by_cases hcond : rows = cols ∧ rows &&& (rows - 1) = 0
  · rw [if_pos hcond]
    simp only
    exact ((List.perm_insertionSort (cellLE rows) _).mem_iff).2 hmem
  · rw [if_neg hcond]
    exact hmem

theorem enumFold_coords :
    ∀ (ks : List (ℤ × ℤ)) (acc : List GridCell) (σ : CellCache), WFCache σ →
      ((ks.foldl enumStep (acc, σ)).1.map cellCoords = acc.map cellCoords ++ ks) ∧
      WFCache (ks.foldl enumStep (acc, σ)).2 := by
  intro ks
  induction ks with
  | nil => intro acc σ h; simpa using h
  | cons k tl ih =>
    intro acc σ h
    rw [List.foldl_cons]
    have hstep : enumStep (acc, σ) k = (acc ++ [(getGridCell k σ).1], (getGridCell k σ).2) := rfl
    rw [hstep]
    obtain ⟨hcoords, hwf'⟩ := ih (acc ++ [(getGridCell k σ).1]) (getGridCell k σ).2
      (getGridCell_wf h k)
    refine ⟨?_, hwf'⟩
    rw [hcoords, List.map_append]
    have hc : cellCoords (getGridCell k σ).1 = k := by
      obtain ⟨h1, h2⟩ := getGridCell_coords h k
      unfold cellCoords
      rw [h1, h2]
    simp [hc]

theorem enumCells_coords {σ : CellCache} (h : WFCache σ) (rows cols : ℕ) :
    (enumCells σ rows cols).1.map cellCoords = coordList rows cols := by
  unfold enumCells
  simpa using (enumFold_coords (coordList rows cols) [] σ h).1

/-- A nonzero natural with `n &&& (n - 1) = 0` is a power of two (the
power-of-two test used by `generateGrid`). -/
theorem land_pred_eq_zero_pow2 : ∀ n : ℕ, n ≠ 0 → n &&& (n - 1) = 0 → ∃ k, n = 2 ^ k := by
  intro n
  induction n using Nat.strong_induction_on with
  | _ n ih =>
    intro hn0 hland
    rcases Nat.lt_or_ge n 2 with h2 | h2
    · interval_cases n
      · exact absurd rfl hn0
      · exact ⟨0, rfl⟩
    · rcases Nat.even_or_odd n with he | ho
      · obtain ⟨m, hm⟩ := he
        have hmpos : m ≠ 0 := by omega
        have hdiv : (n &&& (n - 1)) / 2 = n / 2 &&& (n - 1) / 2 := Nat.and_div_two
        rw [hland] at hdiv
        have hn2 : n / 2 = m := by omega
        have hn12 : (n - 1) / 2 = m - 1 := by omega
        rw [hn2, hn12] at hdiv
        obtain ⟨k, hk⟩ := ih m (by omega) hmpos hdiv.symm
        exact ⟨k + 1, by rw [pow_succ]; omega⟩
      · obtain ⟨m, hm⟩ := ho
        have hmpos : m ≠ 0 := by omega
        have hdiv : (n &&& (n - 1)) / 2 = n / 2 &&& (n - 1) / 2 := Nat.and_div_two
        rw [hland] at hdiv
        have hn2 : n / 2 = m := by omega
        have hn12 : (n - 1) / 2 = m := by omega
        rw [hn2, hn12, Nat.and_self] at hdiv
        exact absurd hdiv.symm hmpos

/-- C7: (a) the enumeration underlying `generateGrid` lists the cell
coordinates in row-major order (`y` outer, `x` inner); (b) when the
configuration is not a square power-of-two grid, `generateGrid` returns that
row-major enumeration unmodified; (c) a 5×5 grid yields exactly the row-major
coordinate sequence; (d) an 8×8 grid yields a permutation of the row-major
coordinates in strictly ascending Hilbert-rank order. -/
theorem gridBuilder_tie_break :
    ∀ σ : CellCache, WFCache σ →
      (∀ rows cols : ℕ, (enumCells σ rows cols).1.map cellCoords = coordList rows cols) ∧
      (∀ rows cols : ℕ, ¬(rows = cols ∧ ∃ k, rows = 2 ^ k) →
        (generateGridS rows cols σ).1 = (enumCells σ rows cols).1) ∧
      ((generateGridS 5 5 σ).1.map cellCoords = coordList 5 5) ∧
      (((generateGridS 8 8 σ).1.map cellCoords).Perm (coordList 8 8) ∧
        ((generateGridS 8 8 σ).1.map (cellRank 8)).Pairwise (· < ·)) := by
  intro σ hWF
  have hcoords : ∀ rows cols : ℕ,
      (enumCells σ rows cols).1.map cellCoords = coordList rows cols :=
    enumCells_coords hWF
  refine ⟨hcoords, ?_, ?_, ?_⟩
  · intro rows cols hnot
    unfold generateGridS
    by_cases hcond : rows = cols ∧ rows &&& (rows - 1) = 0
    · have hrows0 : rows = 0 := by
        by_contra h0
        exact hnot ⟨hcond.1, land_pred_eq_zero_pow2 rows h0 hcond.2⟩
      have hnil : (enumCells σ rows cols).1 = [] := by
        have h := hcoords rows cols
        rw [hrows0] at h ⊢
        have : coordList 0 cols = [] := rfl
        rw [this] at h
        exact List.map_eq_nil_iff.1 h
      rw [if_pos hcond]
      simp only [hnil]
      rfl
    · rw [if_neg hcond]
  · have hcond : ¬((5 : ℕ) = 5 ∧ (5 : ℕ) &&& (5 - 1) = 0) := by decide
    unfold generateGridS
    rw [if_neg hcond]
    exact hcoords 5 5
  · have hcond : ((8 : ℕ) = 8 ∧ (8 : ℕ) &&& (8 - 1) = 0) := by decide
    have hsorted8 : (generateGridS 8 8 σ).1 =
        List.insertionSort (cellLE 8) (enumCells σ 8 8).1 := by
      unfold generateGridS
      rw [if_pos hcond]
    have hperm : ((generateGridS 8 8 σ).1.map cellCoords).Perm (coordList 8 8) := by
      rw [hsorted8, ← hcoords 8 8]
      exact (List.perm_insertionSort (cellLE 8) (enumCells σ 8 8).1).map cellCoords
    refine ⟨hperm, ?_⟩
    have hpairle : ((generateGridS 8 8 σ).1.map (cellRank 8)).Pairwise (· ≤ ·) := by
      rw [hsorted8]
      exact List.Pairwise.map (cellRank 8) (fun a b hab => hab)
        (List.sorted_insertionSort (cellLE 8) (enumCells σ 8 8).1)
    have hrank_comp : ∀ l : List GridCell, l.map (cellRank 8) =
        (l.map cellCoords).map (coordRank 8) := by
      intro l
      rw [List.map_map]
      rfl
    have hnodup : ((generateGridS 8 8 σ).1.map (cellRank 8)).Nodup := by
      rw [hrank_comp]
      have hpermr : (((generateGridS 8 8 σ).1.map cellCoords).map (coordRank 8)).Perm
          ((coordList 8 8).map (coordRank 8)) := hperm.map (coordRank 8)
      rw [hpermr.nodup_iff]
      decide
    exact (hpairle.and hnodup).imp (fun hab => lt_of_le_of_ne hab.1 hab.2)

/-- Witness for C7: the fresh module cache is well-formed, and instantiating
the theorem there gives the 5×5 row-major sequence and the non-square 3×4
fallback. -/
theorem gridBuilder_tie_break_witness :
    WFCache emptyCache ∧
      ((generateGridS 5 5 emptyCache).1.map cellCoords = coordList 5 5) ∧
      (¬((3 : ℕ) = 4 ∧ ∃ k, (3 : ℕ) = 2 ^ k) →
        (generateGridS 3 4 emptyCache).1 = (enumCells emptyCache 3 4).1) := by
  have hwf : WFCache emptyCache := ⟨by simp [emptyCache], by simp [emptyCache]⟩
  exact ⟨hwf, (gridBuilder_tie_break emptyCache hwf).2.2.1,
    (gridBuilder_tie_break emptyCache hwf).2.1 3 4⟩

section PipelineLemmas

theorem applyClassicalMobius_z (x y t : ℝ) (p : MobiusParams) :
    (applyClassicalMobius x y t p).z = 0 := by
  unfold applyClassicalMobius
  dsimp only
  split_ifs <;> rfl

/-- Closed form of the CPU pipeline in classical-Möbius mode: the Möbius stage
receives the noise-displaced coordinates, while the Chladni wave term is
evaluated at the ORIGINAL base coordinates `x`, `y` and added to the carried z. -/
theorem transformPositionJs_classical (noise2 : ℝ → ℝ → ℝ) (noise3 : ℝ → ℝ → ℝ → ℝ)
    (x y time : ℝ) (p : TransformParams) (hp : p.useClassicalMobius = true) :
    transformPositionJs noise2 noise3 x y time p = some
      ⟨(applyClassicalMobius (noiseDX noise3 x y time (p.noiseScale * 0.5) + x)
          (noiseDY noise3 x y time (p.noiseScale * 0.5) + y) time p.mobius).x,
       (applyClassicalMobius (noiseDX noise3 x y time (p.noiseScale * 0.5) + x)
          (noiseDY noise3 x y time (p.noiseScale * 0.5) + y) time p.mobius).y,
       noiseDZ noise3 x y time (p.noiseScale * 0.5) +
         p.chladniAmplitude * (Real.sin (p.chladniFrequencyX * x + time) *
           Real.sin (p.chladniFrequencyY * y + time) +
           noise3 (x * 0.1) (y * 0.1) (time * 0.05) * p.noiseScale)⟩ := by
  unfold transformPositionJs createCombinedMatrixJs createMobiusMatrix
    createNoiseDisplacementMatrix createClassicalMobiusMatrix createChladniMatrix
  rw [hp]
  simp only [if_true, mkTranslation_mul, setFromMatrixPosition_mkTranslation, idMat4_mul]
  rw [Option.map_some']
  congr 1
  rw [applyMatrix4_mkTranslation]
  rw [Vec3.mk.injEq]
  refine ⟨by ring, by ring, ?_⟩
  rw [applyClassicalMobius_z]
  ring

end PipelineLemmas

/-- C4 counterexample: on the GPU path, with classical coefficients
`a=(2,0), b=(0,0), c=(0,0), d=(1,0)` (so the Möbius stage doubles the point),
frequencies 1, amplitude 1, `noiseScale = 0`, time 0 and base vertex
`(π/2, π/2, 0)`, the shader's result differs from the variant that evaluates
the wave at the original base coordinates: the shader adds
`sin(π)·sin(π) = 0` while the base-coordinate wave adds `sin(π/2)² = 1`. -/
theorem chladni_wave_base_coords_counterexample :
    gpuVertexMain cexNoise cexUniforms cexPos 0 ≠
      gpuVertexMainBaseChladni cexNoise cexUniforms cexPos 0 := by
  have hstage2 : gpuStage2 cexNoise cexUniforms cexPos 0 = ⟨Real.pi, Real.pi, 0⟩ := by
    unfold gpuStage2 applyNoiseDisplacementG applyClassicalMobiusG complex_mul complex_div
      cexNoise cexUniforms cexPos
    norm_num [Real.cos_zero, Real.sin_zero]
    ring
  intro h
  unfold gpuVertexMain gpuVertexMainBaseChladni at h
  rw [hstage2] at h
  unfold applyChladniTransformG cexNoise cexUniforms cexPos at h
  simp only [Vec3.mk.injEq] at h
  obtain ⟨-, -, hz⟩ := h
  rw [show (1 : ℝ) * Real.pi + 0 = Real.pi from by ring,
    show (1 : ℝ) * (Real.pi / 2) + 0 = Real.pi / 2 from by ring,
    Real.sin_pi, Real.sin_pi_div_two] at hz
  norm_num at hz

/-- C4 (amended): on the CPU path the stage-3 Chladni wave term is computed
from the original base coordinates (the `sin` arguments use `x`, `y`, not the
displaced/Möbius-transformed coordinates fed to stage 2); on the GPU path
(clothVertex.glsl) the wave term is computed from the stage-2 post-transform
coordinates instead. -/
theorem chladni_wave_coordinates :
    (∀ (noise2 : ℝ → ℝ → ℝ) (noise3 : ℝ → ℝ → ℝ → ℝ) (x y time : ℝ)
        (p : TransformParams), p.useClassicalMobius = true →
      transformPositionJs noise2 noise3 x y time p = some
        ⟨(applyClassicalMobius (noiseDX noise3 x y time (p.noiseScale * 0.5) + x)
            (noiseDY noise3 x y time (p.noiseScale * 0.5) + y) time p.mobius).x,
         (applyClassicalMobius (noiseDX noise3 x y time (p.noiseScale * 0.5) + x)
            (noiseDY noise3 x y time (p.noiseScale * 0.5) + y) time p.mobius).y,
         noiseDZ noise3 x y time (p.noiseScale * 0.5) +
           p.chladniAmplitude * (Real.sin (p.chladniFrequencyX * x + time) *
             Real.sin (p.chladniFrequencyY * y + time) +
             noise3 (x * 0.1) (y * 0.1) (time * 0.05) * p.noiseScale)⟩) ∧
    (∀ (sn : ℝ → ℝ → ℝ → ℝ) (u : ShaderUniforms) (position : Vec3) (time : ℝ),
      gpuVertexMain sn u position time =
        ⟨(gpuStage2 sn u position time).x, (gpuStage2 sn u position time).y,
         (gpuStage2 sn u position time).z + u.uChladniAmplitude *
           (Real.sin (u.uChladniFrequencyX * (gpuStage2 sn u position time).x + time) *
            Real.sin (u.uChladniFrequencyY * (gpuStage2 sn u position time).y + time) +
            sn ((gpuStage2 sn u position time).x * 0.1)
              ((gpuStage2 sn u position time).y * 0.1) (time * 0.05) * u.uNoiseScale)⟩) :=
  ⟨transformPositionJs_classical, fun _ _ _ _ => rfl⟩

/-- Witness for C4's amended theorem: the CPU equation instantiated at the
all-zero parameter set in classical mode. -/
theorem chladni_wave_coordinates_witness :
    (({ chladniAmplitude := 1, chladniFrequencyX := 1, chladniFrequencyY := 1,
        mobiusFactor := 0, noiseScale := 0, useClassicalMobius := true,
        a_real := 1, a_imag := 0, b_real := 0, b_imag := 0, c_real := 0, c_imag := 0,
        d_real := 1, d_imag := 0, mobiusAnimationSpeed := 0 } :
          TransformParams).useClassicalMobius = true) ∧
    transformPositionJs (fun _ _ => 0) cexNoise 0 0 0
      { chladniAmplitude := 1, chladniFrequencyX := 1, chladniFrequencyY := 1,
        mobiusFactor := 0, noiseScale := 0, useClassicalMobius := true,
        a_real := 1, a_imag := 0, b_real := 0, b_imag := 0, c_real := 0, c_imag := 0,
        d_real := 1, d_imag := 0, mobiusAnimationSpeed := 0 } = some
      ⟨(applyClassicalMobius (noiseDX cexNoise 0 0 0 (0 * 0.5) + 0)
          (noiseDY cexNoise 0 0 0 (0 * 0.5) + 0) 0
          ({ chladniAmplitude := 1, chladniFrequencyX := 1, chladniFrequencyY := 1,
             mobiusFactor := 0, noiseScale := 0, useClassicalMobius := true,
             a_real := 1, a_imag := 0, b_real := 0, b_imag := 0, c_real := 0, c_imag := 0,
             d_real := 1, d_imag := 0, mobiusAnimationSpeed := 0 } :
               TransformParams).mobius).x,
       (applyClassicalMobius (noiseDX cexNoise 0 0 0 (0 * 0.5) + 0)
          (noiseDY cexNoise 0 0 0 (0 * 0.5) + 0) 0
          ({ chladniAmplitude := 1, chladniFrequencyX := 1, chladniFrequencyY := 1,
             mobiusFactor := 0, noiseScale := 0, useClassicalMobius := true,
             a_real := 1, a_imag := 0, b_real := 0, b_imag := 0, c_real := 0, c_imag := 0,
             d_real := 1, d_imag := 0, mobiusAnimationSpeed := 0 } :
               TransformParams).mobius).y,
       noiseDZ cexNoise 0 0 0 (0 * 0.5) +
         1 * (Real.sin (1 * 0 + 0) * Real.sin (1 * 0 + 0) +
           cexNoise (0 * 0.1) (0 * 0.1) (0 * 0.05) * 0)⟩ :=
  ⟨rfl, chladni_wave_coordinates.1 (fun _ _ => 0) cexNoise 0 0 0 _ rfl⟩

/-- The C1 scenario's point-wise computation: with `time = 0`,
`amplitude = 1`, `frequencyX = frequencyY = 0.5`, classical mode with the
identity coefficients, `noiseScale = 0` and any animation speed / enhanced
factor, the pipeline maps `(x, y)` to `(x, y, sin(0.5x)·sin(0.5y))`. -/
theorem transformPositionJs_endToEnd (noise2 : ℝ → ℝ → ℝ) (noise3 : ℝ → ℝ → ℝ → ℝ)
    (speed factor x y : ℝ) :
    transformPositionJs noise2 noise3 x y 0
      ⟨1, 0.5, 0.5, factor, 0, true, 1, 0, 0, 0, 0, 0, 1, 0, speed⟩ =
    some ⟨x, y, Real.sin (0.5 * x) * Real.sin (0.5 * y)⟩ := by
  rw [transformPositionJs_classical noise2 noise3 x y 0 _ rfl]
  have hdx : noiseDX noise3 x y 0 ((0 : ℝ) * 0.5) = 0 := by simp [noiseDX]
  have hdy : noiseDY noise3 x y 0 ((0 : ℝ) * 0.5) = 0 := by simp [noiseDY]
  have hdz : noiseDZ noise3 x y 0 ((0 : ℝ) * 0.5) = 0 := by simp [noiseDZ]
  have hmob : (⟨1, 0.5, 0.5, factor, 0, true, 1, 0, 0, 0, 0, 0, 1, 0, speed⟩ :
      TransformParams).mobius = idMobius speed := rfl
  simp only [hmob]
  rw [hdx, hdy, hdz, applyClassicalMobius_idMobius]
  simp only
  rw [Option.some.injEq, Vec3.mk.injEq]
  norm_num [Real.cos_zero, Real.sin_zero]

/-- C1: for every cell of the 8×8 grid and with the claim's parameter set
(`time = 0`, `amplitude = 1`, `frequencyX = frequencyY = 0.5`, classical
Möbius with identity coefficients, `noiseScale = 0`), the CPU deformation
pipeline returns exactly `(x, y, sin(0.5·x)·sin(0.5·y))` at the cell's base
coordinates `(x, y)`. -/
theorem endToEnd_identity_scenario :
    ∀ (noise2 : ℝ → ℝ → ℝ) (noise3 : ℝ → ℝ → ℝ → ℝ) (σ : CellCache), WFCache σ →
    ∀ (speed factor : ℝ), ∀ c ∈ (generateGridS 8 8 σ).1,
      transformPositionJs noise2 noise3 (c.baseX : ℝ) (c.baseY : ℝ) 0
        ⟨1, 0.5, 0.5, factor, 0, true, 1, 0, 0, 0, 0, 0, 1, 0, speed⟩ =
      some ⟨(c.baseX : ℝ), (c.baseY : ℝ),
        Real.sin (0.5 * (c.baseX : ℝ)) * Real.sin (0.5 * (c.baseY : ℝ))⟩ := by
  intro noise2 noise3 σ _ speed factor c _
  exact transformPositionJs_endToEnd noise2 noise3 speed factor _ _

set_option maxRecDepth 10000 in
/-- Witness for C1: the fresh cache is well-formed, the cell `(0,0)` (with
allocation id 0) belongs to the 8×8 build, and the pipeline sends it to
`(0, 0, sin 0 · sin 0)`. -/
theorem endToEnd_identity_scenario_witness :
    WFCache emptyCache ∧ (⟨0, 0, 0⟩ : GridCell) ∈ (generateGridS 8 8 emptyCache).1 ∧
    transformPositionJs (fun _ _ => 0) cexNoise (((0 : ℤ) : ℝ)) (((0 : ℤ) : ℝ)) 0
      ⟨1, 0.5, 0.5, 0, 0, true, 1, 0, 0, 0, 0, 0, 1, 0, 0⟩ =
    some ⟨(((0 : ℤ) : ℝ)), (((0 : ℤ) : ℝ)),
      Real.sin (0.5 * (((0 : ℤ) : ℝ))) * Real.sin (0.5 * (((0 : ℤ) : ℝ)))⟩ := by
  have hwf : WFCache emptyCache := ⟨by simp [emptyCache], by simp [emptyCache]⟩
  have hmem : (⟨0, 0, 0⟩ : GridCell) ∈ (generateGridS 8 8 emptyCache).1 := by decide
  exact ⟨hwf, hmem,
    endToEnd_identity_scenario (fun _ _ => 0) cexNoise emptyCache hwf 0 0 ⟨0, 0, 0⟩ hmem⟩

section HilbertLemmas

theorem hilbertGo_succ (n fuel s x y i : ℕ) :
    hilbertGo n (fuel + 1) s x y i =
      if s = 0 then i
      else
        let rx : ℕ := if x &&& s ≠ 0 then 1 else 0
        let ry : ℕ := if y &&& s ≠ 0 then 1 else 0
        let index2 := i + s * s * ((3 * rx) ^^^ ry)
        if ry = 0 then
          if rx = 1 then hilbertGo n fuel (s / 2) (n - 1 - y) (n - 1 - x) index2
          else hilbertGo n fuel (s / 2) y x index2
        else hilbertGo n fuel (s / 2) x y index2 := rfl

theorem hilbertGo_szero (n fuel x y i : ℕ) : hilbertGo n fuel 0 x y i = i := by
  cases fuel <;> rfl

theorem hilbertGo_add (n : ℕ) :
    ∀ fuel s x y i c, hilbertGo n fuel s x y (i + c) = i + hilbertGo n fuel s x y c := by
  intro fuel
  induction fuel with
  | zero => intro s x y i c; rfl
  | succ fuel ih =>
    intro s x y i c
    rw [hilbertGo_succ, hilbertGo_succ]
    by_cases hs : s = 0
    · rw [if_pos hs, if_pos hs]
    · rw [if_neg hs, if_neg hs]
      dsimp only
      split_ifs <;> (rw [Nat.add_assoc]; exact ih _ _ _ _ _)

theorem hilbertGo_zero_out (n fuel s x y i : ℕ) :
    hilbertGo n fuel s x y i = i + hilbertGo n fuel s x y 0 := by
  have h := hilbertGo_add n fuel s x y i 0
  rwa [Nat.add_zero] at h

theorem hilbertGo_fuel (n : ℕ) :
    ∀ fuel fuel' s x y i, s ≤ fuel → s ≤ fuel' →
      hilbertGo n fuel s x y i = hilbertGo n fuel' s x y i := by
  intro fuel
  induction fuel with
  | zero =>
    intro fuel' s x y i hs _
    have hs0 : s = 0 := Nat.le_zero.1 hs
    rw [hs0, hilbertGo_szero, hilbertGo_szero]
  | succ fuel ih =>
    intro fuel' s x y i hs hs'
    by_cases hs0 : s = 0
    · rw [hs0, hilbertGo_szero, hilbertGo_szero]
    · cases fuel' with
      | zero => exact absurd (Nat.le_zero.1 hs') hs0
      | succ fuel' =>
        rw [hilbertGo_succ, hilbertGo_succ, if_neg hs0, if_neg hs0]
        dsimp only
        have hhalf : s / 2 ≤ fuel := by omega
        have hhalf' : s / 2 ≤ fuel' := by omega
        split_ifs <;> exact ih fuel' (s / 2) _ _ _ hhalf hhalf'

theorem bitAt_div_pow (j x : ℕ) (hx : x < 2 ^ (j + 1)) :
    (if x &&& 2 ^ j ≠ 0 then 1 else 0) = x / 2 ^ j := by
  have hpos : 0 < 2 ^ j := Nat.pos_pow_of_pos j (by norm_num)
  have hdiv : x / 2 ^ j < 2 := by
    rw [Nat.div_lt_iff_lt_mul hpos]
    rw [pow_succ] at hx
    omega
  rw [Nat.and_two_pow, Nat.testBit_to_div_mod]
  have h01 : x / 2 ^ j = 0 ∨ x / 2 ^ j = 1 :=
    Nat.le_one_iff_eq_zero_or_eq_one.mp (Nat.lt_succ_iff.mp hdiv)
  rcases h01 with h | h
  · rw [h]
    norm_num
  · rw [h]
    norm_num

theorem and_pow_mod (x j k : ℕ) (hjk : j < k) : (x % 2 ^ k) &&& 2 ^ j = x &&& 2 ^ j := by
  rw [Nat.and_two_pow, Nat.and_two_pow, Nat.testBit_mod_two_pow]
  simp [hjk]

theorem sub_one_sub_mod (s n y : ℕ) (hdvd : s ∣ n) (hs : 0 < s) (hy : y < n) :
    (n - 1 - y) % s = s - 1 - y % s := by
  obtain ⟨t, ht⟩ := hdvd
  have hq := Nat.div_add_mod y s
  have hr : y % s < s := Nat.mod_lt _ hs
  have hqt : y / s < t := by
    by_contra hc
    push_neg at hc
    have : s * t ≤ s * (y / s) := Nat.mul_le_mul_left s hc
    omega
  have h2 : s * (y / s) ≤ y := by
    rw [mul_comm]
    exact Nat.div_mul_le_self y s
  have h3 : s * (y / s) + s ≤ s * t := by
    have hle : y / s + 1 ≤ t := hqt
    calc s * (y / s) + s = s * (y / s + 1) := by ring
      _ ≤ s * t := Nat.mul_le_mul_left s hle
  have hrw : n - 1 - y = s * (t - (y / s) - 1) + (s - 1 - y % s) := by
    have h1 : s * (t - (y / s) - 1) = s * t - s * (y / s) - s := by
      rw [Nat.mul_sub, Nat.mul_sub]
      omega
    omega
  rw [hrw, Nat.mul_add_mod, Nat.mod_eq_of_lt (by omega)]

theorem hilbertGo_mod :
    ∀ (j fuel n m x y i : ℕ), 2 ^ j ≤ fuel →
      2 ^ (j + 1) ∣ n → 2 ^ (j + 1) ∣ m → 0 < m → x < n → y < n →
      hilbertGo n fuel (2 ^ j) x y i =
        hilbertGo m fuel (2 ^ j) (x % 2 ^ (j + 1)) (y % 2 ^ (j + 1)) i := by
  intro j
  induction j with
  | zero =>
    intro fuel n m x y i hfuel hn hm hm0 hx hy
    obtain ⟨fuel, rfl⟩ : ∃ f, fuel = f + 1 := ⟨fuel - 1, by omega⟩
    rw [hilbertGo_succ, hilbertGo_succ]
    rw [pow_zero, if_neg one_ne_zero, if_neg one_ne_zero]
    dsimp only
    have hmod2 : (2 : ℕ) ^ (0 + 1) = 2 := by norm_num
    rw [hmod2]
    have hx2 : (x % 2) &&& 1 = x &&& 1 := by
      rw [Nat.and_one_is_mod, Nat.and_one_is_mod]
      exact Nat.mod_mod_of_dvd x (dvd_refl 2)
    have hy2 : (y % 2) &&& 1 = y &&& 1 := by
      rw [Nat.and_one_is_mod, Nat.and_one_is_mod]
      exact Nat.mod_mod_of_dvd y (dvd_refl 2)
    rw [hx2, hy2]
    have hhalf0 : (1 : ℕ) / 2 = 0 := by norm_num
    rw [hhalf0]
    rw [hilbertGo_szero, hilbertGo_szero, hilbertGo_szero, hilbertGo_szero,
      hilbertGo_szero, hilbertGo_szero]
  | succ j ih =>
    intro fuel n m x y i hfuel hn hm hm0 hx hy
    have hspos : (0 : ℕ) < 2 ^ (j + 1) := Nat.pos_pow_of_pos _ (by norm_num)
    obtain ⟨fuel, rfl⟩ : ∃ f, fuel = f + 1 := ⟨fuel - 1, by omega⟩
    have hfuel2 : 2 ^ j ≤ fuel := by
      have hps : 2 ^ (j + 1) = 2 * 2 ^ j := by rw [pow_succ]; ring
      have hjpos : 0 < 2 ^ j := Nat.pos_pow_of_pos _ (by norm_num)
      omega
    rw [hilbertGo_succ, hilbertGo_succ]
    rw [if_neg (Nat.pos_iff_ne_zero.1 hspos), if_neg (Nat.pos_iff_ne_zero.1 hspos)]
    dsimp only
    have hrx : (x % 2 ^ (j + 1 + 1)) &&& 2 ^ (j + 1) = x &&& 2 ^ (j + 1) :=
      and_pow_mod x (j + 1) (j + 1 + 1) (by omega)
    have hry : (y % 2 ^ (j + 1 + 1)) &&& 2 ^ (j + 1) = y &&& 2 ^ (j + 1) :=
      and_pow_mod y (j + 1) (j + 1 + 1) (by omega)
    rw [hrx, hry]
    have hhalf : 2 ^ (j + 1) / 2 = 2 ^ j := by
      rw [pow_succ]
      omega
    rw [hhalf]
    have hdvdn : 2 ^ (j + 1) ∣ n := dvd_trans ⟨2, by rw [pow_succ]⟩ hn
    have hdvdm : 2 ^ (j + 1) ∣ m := dvd_trans ⟨2, by rw [pow_succ]⟩ hm
    have hn0 : 0 < n := lt_of_le_of_lt (Nat.zero_le x) hx
    have hmod_lt : ∀ z : ℕ, z % 2 ^ (j + 1 + 1) < m :=
      fun z => lt_of_lt_of_le (Nat.mod_lt z (Nat.pos_pow_of_pos _ (by norm_num)))
        (Nat.le_of_dvd hm0 hm)
    have hmm : ∀ z : ℕ, (z % 2 ^ (j + 1 + 1)) % 2 ^ (j + 1) = z % 2 ^ (j + 1) :=
      fun z => Nat.mod_mod_of_dvd z ⟨2, by rw [pow_succ]⟩
    by_cases hby : y &&& 2 ^ (j + 1) ≠ 0
    · -- ry = 1 : coordinates passed through unchanged
      rw [if_pos hby, if_neg one_ne_zero, if_neg one_ne_zero]
      rw [ih fuel n (2 ^ (j + 1)) x y _ hfuel2 hdvdn (dvd_refl _) hspos hx hy]
      rw [ih fuel m (2 ^ (j + 1)) (x % 2 ^ (j + 1 + 1)) (y % 2 ^ (j + 1 + 1))
        _ hfuel2 hdvdm (dvd_refl _) hspos (hmod_lt x) (hmod_lt y)]
      rw [hmm x, hmm y]
    · -- ry = 0
      rw [if_neg hby, if_pos rfl, if_pos rfl]
      by_cases hbx : x &&& 2 ^ (j + 1) ≠ 0
      · -- rx = 1 : reflect through (n-1-·) then swap
        rw [if_pos hbx, if_pos rfl, if_pos rfl]
        rw [ih fuel n (2 ^ (j + 1)) (n - 1 - y) (n - 1 - x) _ hfuel2 hdvdn (dvd_refl _)
          hspos (by omega) (by omega)]
        rw [ih fuel m (2 ^ (j + 1)) (m - 1 - y % 2 ^ (j + 1 + 1))
          (m - 1 - x % 2 ^ (j + 1 + 1)) _ hfuel2 hdvdm (dvd_refl _) hspos
          (by have := hmod_lt y; omega) (by have := hmod_lt x; omega)]
        rw [sub_one_sub_mod _ _ _ hdvdn hspos hy, sub_one_sub_mod _ _ _ hdvdn hspos hx,
          sub_one_sub_mod _ _ _ hdvdm hspos (hmod_lt y),
          sub_one_sub_mod _ _ _ hdvdm hspos (hmod_lt x)]
        rw [hmm x, hmm y]
      · -- rx = 0 : swap only
        rw [if_neg hbx, if_neg (by norm_num : ¬(0 : ℕ) = 1), if_neg (by norm_num : ¬(0 : ℕ) = 1)]
        rw [ih fuel n (2 ^ (j + 1)) y x _ hfuel2 hdvdn (dvd_refl _) hspos hy hx]
        rw [ih fuel m (2 ^ (j + 1)) (y % 2 ^ (j + 1 + 1)) (x % 2 ^ (j + 1 + 1))
          _ hfuel2 hdvdm (dvd_refl _) hspos (hmod_lt y) (hmod_lt x)]
        rw [hmm x, hmm y]

theorem hilbertGo_step (n fuel s x y i : ℕ) (hfuel : 1 ≤ fuel) (hs : s ≠ 0) :
    hilbertGo n fuel s x y i =
      (let rx : ℕ := if x &&& s ≠ 0 then 1 else 0
       let ry : ℕ := if y &&& s ≠ 0 then 1 else 0
       let index2 := i + s * s * ((3 * rx) ^^^ ry)
       if ry = 0 then
         if rx = 1 then hilbertGo n (fuel - 1) (s / 2) (n - 1 - y) (n - 1 - x) index2
         else hilbertGo n (fuel - 1) (s / 2) y x index2
       else hilbertGo n (fuel - 1) (s / 2) x y index2) := by
  obtain ⟨f, rfl⟩ : ∃ f, fuel = f + 1 := ⟨fuel - 1, by omega⟩
  rw [hilbertGo_succ, if_neg hs]
  simp only [Nat.add_sub_cancel]

theorem quadTransform_lt (s x y : ℕ) (hs : 0 < s) (hx : x < 2 * s) (_hy : y < 2 * s) :
    (quadTransform s x y).1 < s ∧ (quadTransform s x y).2 < s := by
  unfold quadTransform
  by_cases hry : y / s = 0
  · rw [if_pos hry]
    have hys : y < s := (Nat.div_eq_zero_iff hs).1 hry
    by_cases hrx : x / s = 1
    · rw [if_pos hrx]
      refine ⟨?_, ?_⟩ <;>
        exact lt_of_le_of_lt (Nat.sub_le _ _) (Nat.sub_lt hs one_pos)
    · rw [if_neg hrx]
      have hxd : x / s < 2 := by
        rw [Nat.div_lt_iff_lt_mul hs]
        omega
      have hx0 : x / s = 0 := by
        rcases Nat.le_one_iff_eq_zero_or_eq_one.mp (Nat.lt_succ_iff.mp hxd) with h | h
        · exact h
        · exact absurd h hrx
      have hxs : x < s := (Nat.div_eq_zero_iff hs).1 hx0
      exact ⟨hys, hxs⟩
  · rw [if_neg hry]
    exact ⟨Nat.mod_lt _ hs, Nat.mod_lt _ hs⟩

theorem hilbertIndex_succ_rec (j x y : ℕ) (hx : x < 2 ^ (j + 1)) (hy : y < 2 ^ (j + 1)) :
    hilbertIndex (2 ^ (j + 1)) x y =
      2 ^ j * 2 ^ j * ((3 * (x / 2 ^ j)) ^^^ (y / 2 ^ j)) +
        hilbertIndex (2 ^ j) (quadTransform (2 ^ j) x y).1 (quadTransform (2 ^ j) x y).2 := by
  have hjpos : (0 : ℕ) < 2 ^ j := Nat.pos_pow_of_pos _ (by norm_num)
  have hhalf : 2 ^ (j + 1) / 2 = 2 ^ j := by rw [pow_succ]; omega
  unfold hilbertIndex
  rw [hhalf]
  rw [hilbertGo_step (2 ^ (j + 1)) (2 ^ j) (2 ^ j) x y 0 hjpos (Nat.pos_iff_ne_zero.1 hjpos)]
  dsimp only
  rw [bitAt_div_pow j x hx, bitAt_div_pow j y hy]
  unfold quadTransform
  cases j with
  | zero =>
    simp only [pow_zero] at *
    rw [show (1 : ℕ) / 2 = 0 from rfl]
    simp only [hilbertGo_szero]
    split_ifs <;> omega
  | succ k =>
    have hkpos : (0 : ℕ) < 2 ^ k := Nat.pos_pow_of_pos _ (by norm_num)
    have hs2 : 2 ^ (k + 1) / 2 = 2 ^ k := by rw [pow_succ]; omega
    have h2s : (2 : ℕ) ^ (k + 1) = 2 * 2 ^ k := by rw [pow_succ]; ring
    have h2s2 : (2 : ℕ) ^ (k + 1 + 1) = 2 * 2 ^ (k + 1) := by rw [pow_succ (2 : ℕ) (k + 1)]; ring
    have hfuel1 : 2 ^ k ≤ 2 ^ (k + 1) - 1 := by omega
    have hspos : (0 : ℕ) < 2 ^ (k + 1) := Nat.pos_pow_of_pos _ (by norm_num)
    have hn0 : (0 : ℕ) < 2 ^ (k + 1 + 1) := Nat.pos_pow_of_pos _ (by norm_num)
    have hdvdn : 2 ^ (k + 1) ∣ 2 ^ (k + 1 + 1) := ⟨2, by rw [pow_succ]⟩
    rw [hs2]
    by_cases hry : y / 2 ^ (k + 1) = 0
    · have hys : y < 2 ^ (k + 1) := (Nat.div_eq_zero_iff hspos).1 hry
      rw [if_pos hry, if_pos hry]
      by_cases hrx : x / 2 ^ (k + 1) = 1
      · rw [if_pos hrx, if_pos hrx]
        rw [hilbertGo_mod k (2 ^ (k + 1) - 1) (2 ^ (k + 1 + 1)) (2 ^ (k + 1))
          (2 ^ (k + 1 + 1) - 1 - y) (2 ^ (k + 1 + 1) - 1 - x) _ hfuel1 hdvdn (dvd_refl _)
          hspos (by omega) (by omega)]
        rw [hilbertGo_fuel (2 ^ (k + 1)) (2 ^ (k + 1) - 1) (2 ^ k) (2 ^ k) _ _ _
          hfuel1 (le_refl _)]
        rw [sub_one_sub_mod _ _ _ hdvdn hspos hy, sub_one_sub_mod _ _ _ hdvdn hspos hx]
        dsimp only
        rw [hilbertGo_zero_out]
        omega
      · rw [if_neg hrx, if_neg hrx]
        have hxd : x / 2 ^ (k + 1) < 2 := by
          rw [Nat.div_lt_iff_lt_mul hspos]
          omega
        have hx0 : x / 2 ^ (k + 1) = 0 := by
          rcases Nat.le_one_iff_eq_zero_or_eq_one.mp (Nat.lt_succ_iff.mp hxd) with h | h
          · exact h
          · exact absurd h hrx
        have hxs : x < 2 ^ (k + 1) := (Nat.div_eq_zero_iff hspos).1 hx0
        rw [hilbertGo_mod k (2 ^ (k + 1) - 1) (2 ^ (k + 1 + 1)) (2 ^ (k + 1)) y x _
          hfuel1 hdvdn (dvd_refl _) hspos (by omega) (by omega)]
        rw [hilbertGo_fuel (2 ^ (k + 1)) (2 ^ (k + 1) - 1) (2 ^ k) (2 ^ k) _ _ _
          hfuel1 (le_refl _)]
        rw [Nat.mod_eq_of_lt hys, Nat.mod_eq_of_lt hxs]
        dsimp only
        rw [hilbertGo_zero_out]
        omega
    · rw [if_neg hry, if_neg hry]
      rw [hilbertGo_mod k (2 ^ (k + 1) - 1) (2 ^ (k + 1 + 1)) (2 ^ (k + 1)) x y _
        hfuel1 hdvdn (dvd_refl _) hspos (by omega) (by omega)]
      rw [hilbertGo_fuel (2 ^ (k + 1)) (2 ^ (k + 1) - 1) (2 ^ k) (2 ^ k) _ _ _
        hfuel1 (le_refl _)]
      dsimp only
      rw [hilbertGo_zero_out]
      omega

theorem quadVal_le_three (a b : ℕ) (ha : a < 2) (hb : b < 2) : (3 * a) ^^^ b ≤ 3 := by
  interval_cases a <;> interval_cases b <;> decide

theorem quadVal_inj (a b a' b' : ℕ) (ha : a < 2) (hb : b < 2) (ha' : a' < 2) (hb' : b' < 2)
    (h : (3 * a) ^^^ b = (3 * a') ^^^ b') : a = a' ∧ b = b' := by
  interval_cases a <;> interval_cases b <;> interval_cases a' <;> interval_cases b' <;>
    revert h <;> decide

theorem div_two_pow_lt_two (j x : ℕ) (hx : x < 2 ^ (j + 1)) : x / 2 ^ j < 2 := by
  have hpos : (0 : ℕ) < 2 ^ j := Nat.pos_pow_of_pos _ (by norm_num)
  rw [Nat.div_lt_iff_lt_mul hpos]
  rw [pow_succ] at hx
  omega

theorem quadTransform_inj (s x1 y1 x2 y2 : ℕ) (hs : 0 < s)
    (hdx : x1 / s = x2 / s) (hdy : y1 / s = y2 / s)
    (h1 : (quadTransform s x1 y1).1 = (quadTransform s x2 y2).1)
    (h2 : (quadTransform s x1 y1).2 = (quadTransform s x2 y2).2) :
    x1 = x2 ∧ y1 = y2 := by
  have e1 := Nat.div_add_mod x1 s
  have e2 := Nat.div_add_mod x2 s
  have e3 := Nat.div_add_mod y1 s
  have e4 := Nat.div_add_mod y2 s
  rw [hdx] at e1
  rw [hdy] at e3
  have hm1 : x1 % s < s := Nat.mod_lt _ hs
  have hm2 : x2 % s < s := Nat.mod_lt _ hs
  have hm3 : y1 % s < s := Nat.mod_lt _ hs
  have hm4 : y2 % s < s := Nat.mod_lt _ hs
  unfold quadTransform at h1 h2
  rw [hdy] at h1 h2
  by_cases hry : y2 / s = 0
  · rw [if_pos hry, if_pos hry] at h1 h2
    rw [hdx] at h1 h2
    have hy1s : y1 < s := by
      have := (Nat.div_eq_zero_iff hs).1 (hdy.trans hry)
      exact this
    have hy2s : y2 < s := (Nat.div_eq_zero_iff hs).1 hry
    by_cases hrx : x2 / s = 1
    · rw [if_pos hrx, if_pos hrx] at h1 h2
      dsimp only at h1 h2
      constructor <;> omega
    · rw [if_neg hrx, if_neg hrx] at h1 h2
      dsimp only at h1 h2
      exact ⟨h2, h1⟩
  · rw [if_neg hry, if_neg hry] at h1 h2
    dsimp only at h1 h2
    constructor <;> omega

theorem hilbertIndex_lt_sq :
    ∀ j x y, x < 2 ^ j → y < 2 ^ j → hilbertIndex (2 ^ j) x y < 2 ^ j * 2 ^ j := by
  intro j
  induction j with
  | zero =>
    intro x y hx hy
    interval_cases x
    interval_cases y
    decide
  | succ j ih =>
    intro x y hx hy
    rw [hilbertIndex_succ_rec j x y hx hy]
    have hjpos : (0 : ℕ) < 2 ^ j := Nat.pos_pow_of_pos _ (by norm_num)
    have h2s : (2 : ℕ) ^ (j + 1) = 2 * 2 ^ j := by rw [pow_succ]; ring
    obtain ⟨hu, hv⟩ := quadTransform_lt (2 ^ j) x y hjpos (by omega) (by omega)
    have ht := ih _ _ hu hv
    have hq := quadVal_le_three (x / 2 ^ j) (y / 2 ^ j)
      (div_two_pow_lt_two j x hx) (div_two_pow_lt_two j y hy)
    have hmul : 2 ^ j * 2 ^ j * ((3 * (x / 2 ^ j)) ^^^ (y / 2 ^ j)) ≤ 2 ^ j * 2 ^ j * 3 :=
      Nat.mul_le_mul_left _ hq
    have h4 : 2 ^ (j + 1) * 2 ^ (j + 1) = 4 * (2 ^ j * 2 ^ j) := by
      rw [pow_succ]
      ring
    omega

theorem hilbertIndex_injective :
    ∀ j x1 y1 x2 y2, x1 < 2 ^ j → y1 < 2 ^ j → x2 < 2 ^ j → y2 < 2 ^ j →
      hilbertIndex (2 ^ j) x1 y1 = hilbertIndex (2 ^ j) x2 y2 → x1 = x2 ∧ y1 = y2 := by
  intro j
  induction j with
  | zero =>
    intro x1 y1 x2 y2 hx1 hy1 hx2 hy2 _
    exact ⟨by omega, by omega⟩
  | succ j ih =>
    intro x1 y1 x2 y2 hx1 hy1 hx2 hy2 heq
    rw [hilbertIndex_succ_rec j x1 y1 hx1 hy1, hilbertIndex_succ_rec j x2 y2 hx2 hy2] at heq
    have hjpos : (0 : ℕ) < 2 ^ j := Nat.pos_pow_of_pos _ (by norm_num)
    have h2s : (2 : ℕ) ^ (j + 1) = 2 * 2 ^ j := by rw [pow_succ]; ring
    obtain ⟨hu1, hv1⟩ := quadTransform_lt (2 ^ j) x1 y1 hjpos (by omega) (by omega)
    obtain ⟨hu2, hv2⟩ := quadTransform_lt (2 ^ j) x2 y2 hjpos (by omega) (by omega)
    have ht1 := hilbertIndex_lt_sq j _ _ hu1 hv1
    have ht2 := hilbertIndex_lt_sq j _ _ hu2 hv2
    have hApos : (0 : ℕ) < 2 ^ j * 2 ^ j := Nat.mul_pos hjpos hjpos
    have hq : (3 * (x1 / 2 ^ j)) ^^^ (y1 / 2 ^ j) = (3 * (x2 / 2 ^ j)) ^^^ (y2 / 2 ^ j) := by
      have e1 : (2 ^ j * 2 ^ j * ((3 * (x1 / 2 ^ j)) ^^^ (y1 / 2 ^ j)) +
          hilbertIndex (2 ^ j) (quadTransform (2 ^ j) x1 y1).1
            (quadTransform (2 ^ j) x1 y1).2) / (2 ^ j * 2 ^ j) =
          (3 * (x1 / 2 ^ j)) ^^^ (y1 / 2 ^ j) := by
        rw [Nat.mul_add_div hApos, Nat.div_eq_of_lt ht1, Nat.add_zero]
      have e2 : (2 ^ j * 2 ^ j * ((3 * (x2 / 2 ^ j)) ^^^ (y2 / 2 ^ j)) +
          hilbertIndex (2 ^ j) (quadTransform (2 ^ j) x2 y2).1
            (quadTransform (2 ^ j) x2 y2).2) / (2 ^ j * 2 ^ j) =
          (3 * (x2 / 2 ^ j)) ^^^ (y2 / 2 ^ j) := by
        rw [Nat.mul_add_div hApos, Nat.div_eq_of_lt ht2, Nat.add_zero]
      rw [← e1, ← e2, heq]
    obtain ⟨hdx, hdy⟩ := quadVal_inj _ _ _ _
      (div_two_pow_lt_two j x1 hx1) (div_two_pow_lt_two j y1 hy1)
      (div_two_pow_lt_two j x2 hx2) (div_two_pow_lt_two j y2 hy2) hq
    have ht : hilbertIndex (2 ^ j) (quadTransform (2 ^ j) x1 y1).1
        (quadTransform (2 ^ j) x1 y1).2 =
        hilbertIndex (2 ^ j) (quadTransform (2 ^ j) x2 y2).1
          (quadTransform (2 ^ j) x2 y2).2 := by
      rw [hq] at heq
      omega
    obtain ⟨hc1, hc2⟩ := ih _ _ _ _ hu1 hv1 hu2 hv2 ht
    exact quadTransform_inj (2 ^ j) x1 y1 x2 y2 hjpos hdx hdy hc1 hc2

end HilbertLemmas

/-- C2: for every grid side `n = 2^k`, the Hilbert indexer restricted to
`[0, n)²` is a bijection onto `[0, n²)`: every rank lies below `n²`, distinct
coordinates receive distinct ranks, and every rank below `n²` is attained. -/
theorem hilbertIndex_bijectivity :
    ∀ k : ℕ,
      (∀ x y, x < 2 ^ k → y < 2 ^ k → hilbertIndex (2 ^ k) x y < (2 ^ k) ^ 2) ∧
      (∀ x1 y1 x2 y2, x1 < 2 ^ k → y1 < 2 ^ k → x2 < 2 ^ k → y2 < 2 ^ k →
        hilbertIndex (2 ^ k) x1 y1 = hilbertIndex (2 ^ k) x2 y2 → x1 = x2 ∧ y1 = y2) ∧
      (∀ r, r < (2 ^ k) ^ 2 → ∃ x y, x < 2 ^ k ∧ y < 2 ^ k ∧ hilbertIndex (2 ^ k) x y = r) := by
  intro k
  have hsq : ((2 : ℕ) ^ k) ^ 2 = 2 ^ k * 2 ^ k := by ring
  have hlt : ∀ x y, x < 2 ^ k → y < 2 ^ k → hilbertIndex (2 ^ k) x y < (2 ^ k) ^ 2 := by
    intro x y hx hy
    rw [hsq]
    exact hilbertIndex_lt_sq k x y hx hy
  refine ⟨hlt, hilbertIndex_injective k, ?_⟩
  intro r hr
  set n := 2 ^ k with hn
  set F : Finset (ℕ × ℕ) := Finset.range n ×ˢ Finset.range n with hF
  have himg : F.image (fun p => hilbertIndex n p.1 p.2) ⊆ Finset.range (n ^ 2) := by
    intro a ha
    obtain ⟨p, hp, hpa⟩ := Finset.mem_image.1 ha
    obtain ⟨hp1, hp2⟩ := Finset.mem_product.1 hp
    rw [Finset.mem_range] at hp1 hp2 ⊢
    rw [← hpa]
    exact hlt p.1 p.2 hp1 hp2
  have hinj : Set.InjOn (fun p : ℕ × ℕ => hilbertIndex n p.1 p.2) F := by
    intro p hp q hq hpq
    obtain ⟨hp1, hp2⟩ := Finset.mem_product.1 hp
    obtain ⟨hq1, hq2⟩ := Finset.mem_product.1 hq
    rw [Finset.mem_range] at hp1 hp2 hq1 hq2
    obtain ⟨h1, h2⟩ := hilbertIndex_injective k p.1 p.2 q.1 q.2 hp1 hp2 hq1 hq2 hpq
    exact Prod.ext h1 h2
  have hcard : (F.image (fun p => hilbertIndex n p.1 p.2)).card = n ^ 2 := by
    rw [Finset.card_image_of_injOn hinj, hF, Finset.card_product, Finset.card_range]
    ring
  have heq : F.image (fun p => hilbertIndex n p.1 p.2) = Finset.range (n ^ 2) := by
    apply Finset.eq_of_subset_of_card_le himg
    rw [hcard, Finset.card_range]
  have hrmem : r ∈ F.image (fun p => hilbertIndex n p.1 p.2) := by
    rw [heq, Finset.mem_range]
    exact hr
  obtain ⟨p, hp, hpr⟩ := Finset.mem_image.1 hrmem
  obtain ⟨hp1, hp2⟩ := Finset.mem_product.1 hp
  rw [Finset.mem_range] at hp1 hp2
  exact ⟨p.1, p.2, hp1, hp2, hpr⟩

/-- Witness for C2, at `n = 2^3 = 8`: the rank of `(3, 5)` lies below 64,
equal ranks force equal coordinates at a concrete pair, and rank 17 is
attained. -/
theorem hilbertIndex_bijectivity_witness :
    ((3 : ℕ) < 2 ^ 3 ∧ (5 : ℕ) < 2 ^ 3 ∧ hilbertIndex (2 ^ 3) 3 5 < (2 ^ 3) ^ 2) ∧
    ((2 : ℕ) = 2 ∧ (6 : ℕ) = 6) ∧
    (∃ x y, x < 2 ^ 3 ∧ y < 2 ^ 3 ∧ hilbertIndex (2 ^ 3) x y = 17) := by
  refine ⟨⟨by norm_num, by norm_num,
      (hilbertIndex_bijectivity 3).1 3 5 (by norm_num) (by norm_num)⟩, ?_, ?_⟩
  · exact (hilbertIndex_bijectivity 3).2.1 2 6 2 6 (by norm_num) (by norm_num)
      (by norm_num) (by norm_num) rfl
  · exact (hilbertIndex_bijectivity 3).2.2 17 (by norm_num)

/-- Witness for C9's amended theorem: after the 2×2 build, the cached (0,0)
cell (allocation id 0) is returned again by the 4×4 build. -/
theorem gridCache_persists_across_builds_witness :
    ((0 : ℕ) < 4 ∧ (0 : ℕ) < 4 ∧
      (generateGridS 2 2 emptyCache).2.entries.lookup ((0 : ℤ), (0 : ℤ)) =
        some ⟨0, 0, 0⟩) ∧
    (⟨0, 0, 0⟩ : GridCell) ∈ (generateGridS 4 4 (generateGridS 2 2 emptyCache).2).1 := by
  refine ⟨⟨by norm_num, by norm_num, by decide⟩, ?_⟩
  exact gridCache_persists_across_builds (generateGridS 2 2 emptyCache).2 4 4 0 0
    ⟨0, 0, 0⟩ (by norm_num) (by norm_num) (by decide)

end ChladniMobius
